import Mathlib

/-!
# Formal model of the cachly in-process cache engine

This file gives a shallow embedding, in Lean 4, of the cache engine found in
src/Cachly.ts together with its utility modules src/utils/CircuitBreaker.ts,
src/utils/Partitioning.ts and src/utils/compression.ts, and proves properties
of that embedding.

Modelling conventions:
* A JavaScript Map is embedded as an insertion-ordered association list
  (a JS Map iterates in insertion order, and overwriting an existing key keeps
  its original position; a JS Map never holds a duplicate key).
* A JavaScript Set is embedded as an insertion-ordered duplicate-free list.
* Clock reads (Date.now()) are an explicit natural-number argument: the engine
  performs no intra-operation waiting, so one timestamp per public operation
  step is the faithful single-threaded picture.  Times are Nat (milliseconds).
* Unbounded recursion / while loops in the source (the cascading delete, the
  post-set eviction loop) are embedded with explicit fuel returning an Option:
  a none result means the source code would not have terminated at that
  unrolling depth.
* External platform facilities (the zlib/brotli/lz4 codecs, JSON.stringify /
  JSON.parse) are not part of this repository; they are modelled as lossless
  codecs applied to a JSON value domain, with the serialized byte size given
  by an explicit size function.  Buffers are modelled by their provenance.
* Event emission, console logging, hooks and the floating-point statistics
  fields (hitRate, memoryUsage, ...) are observability-only and are dropped
  from the state; the integer counters (hits, misses, evictions,
  totalAccesses, keyCount) are kept.
-/

namespace Cachly

/-! ## JS collection primitives -/

/-- Membership-respecting add of a JS Set: appends at the end when absent. -/
def sadd (x : String) (l : List String) : List String :=
  if x ∈ l then l else l ++ [x]

/-- JS Set.delete: removes the element. -/
def sremove (x : String) (l : List String) : List String :=
  l.filter (fun y => y ≠ x)

/-- new Set(array): deduplicate preserving first-occurrence order. -/
def sdedup (l : List String) : List String :=
  l.foldl (fun acc x => sadd x acc) []

/-- Map.get on an insertion-ordered association list. -/
def mapGet {α : Type} (m : List (String × α)) (k : String) : Option α :=
  match m with
  | [] => none
  | p :: rest => if p.1 = k then some p.2 else mapGet rest k

/-- Map.set: replace in place when present (JS Maps keep the original
insertion position on overwrite), append otherwise. -/
def mapSet {α : Type} (m : List (String × α)) (k : String) (v : α) :
    List (String × α) :=
  match m with
  | [] => [(k, v)]
  | p :: rest => if p.1 = k then (k, v) :: rest else p :: mapSet rest k v

/-- Map.delete. -/
def mapDelete {α : Type} (m : List (String × α)) (k : String) :
    List (String × α) :=
  match m with
  | [] => []
  | p :: rest => if p.1 = k then rest else p :: mapDelete rest k

/-- Update the value stored at a key when the key is present (the source's
pattern: const it = map.get(k); if (it) mutate it). -/
def mapModify {α : Type} (m : List (String × α)) (k : String) (f : α → α) :
    List (String × α) :=
  match m with
  | [] => []
  | p :: rest => if p.1 = k then (p.1, f p.2) :: rest else p :: mapModify rest k f

/-! ## Value domain and the compression codec model

The engine stores arbitrary JSON-serializable values.  We model the value
domain by JSON scalar values.  JSON.stringify / JSON.parse and the zlib,
brotli and lz4 codecs are platform libraries, not code of this repository;
they are modelled as injective, lossless transforms.  A Node Buffer is
modelled by its provenance: which transform produced it from which value.
The serialized byte size Buffer.byteLength(JSON.stringify v) is given by an
explicit size function (exact for ASCII scalar payloads without escapes), and
each codec's output length by a representative length function: the claims
settled here never depend on the particular compressed lengths. -/

inductive JsVal
  | jnull
  | jbool (b : Bool)
  | jnum (n : Int)
  | jstr (s : String)
  deriving DecidableEq, Repr

/-- Model of Buffer.byteLength(JSON.stringify v, 'utf8'). -/
def jsonSize : JsVal → Nat
  | .jnull => 4
  | .jbool true => 4
  | .jbool false => 5
  | .jnum n => (toString n).length
  | .jstr s => s.utf8ByteSize + 2

inductive CompressAlg
  | gzip
  | brotli
  | lz4
  deriving DecidableEq, Repr

/-- A stored value, tracked by provenance (src/utils/compression.ts wraps
values into Buffers; see CompressionUtil.compress). -/
inductive StoredVal
  | plain (v : JsVal)       -- stored untransformed (compression disabled)
  | jsonBuf (v : JsVal)     -- Buffer.from(JSON.stringify v): below-threshold path
  | gzipBuf (v : JsVal)     -- gzip(JSON.stringify v)
  | brotliBuf (v : JsVal)   -- brotli(JSON.stringify v)
  | lz4Buf (v : JsVal)      -- lz4(JSON.stringify v)
  deriving DecidableEq, Repr

/-- Representative model of a codec's output byte length. -/
def gzipLen (n : Nat) : Nat := n / 2 + 21

def brotliLen (n : Nat) : Nat := n / 2 + 9

def lz4Len (n : Nat) : Nat := n / 2 + 15

structure CompressionConfig where
  enabled : Bool
  algorithm : CompressAlg
  threshold : Nat
  deriving DecidableEq, Repr

structure CompressResult where
  data : StoredVal
  originalSize : Nat
  compressedSize : Nat
  deriving DecidableEq, Repr

/-- CompressionUtil.compress: serialized size below the threshold returns the
raw JSON text as a Buffer with compressedSize = originalSize; otherwise the
selected codec is applied.  (The codec libraries are assumed available; the
source's unavailability fallbacks to gzip are environment conditions outside
this model.) -/
def compressUtil (v : JsVal) (cfg : CompressionConfig) : CompressResult :=
  let originalSize := jsonSize v
  if originalSize < cfg.threshold then
    { data := .jsonBuf v, originalSize, compressedSize := originalSize }
  else
    match cfg.algorithm with
    | .gzip =>
      { data := .gzipBuf v, originalSize, compressedSize := gzipLen originalSize }
    | .brotli =>
      { data := .brotliBuf v, originalSize, compressedSize := brotliLen originalSize }
    | .lz4 =>
      { data := .lz4Buf v, originalSize, compressedSize := lz4Len originalSize }

/-- CompressionUtil.decompress with the algorithm taken from the *current*
configuration.  Feeding bytes produced by a different transform (or raw JSON
text) to a codec's decoder throws, which the source converts into a failure;
modelled as none. -/
def decompressUtil (a : CompressAlg) (sv : StoredVal) : Option JsVal :=
  match a, sv with
  | .gzip, .gzipBuf v => some v
  | .brotli, .brotliBuf v => some v
  | .lz4, .lz4Buf v => some v
  | _, _ => none

/-! ## The cache data model (src/types.ts, src/Cachly.ts fields) -/

structure CacheItem where
  value : StoredVal
  createdAt : Nat
  expiresAt : Option Nat
  staleAt : Option Nat
  dependsOn : List String
  dependents : List String
  tags : List String
  accessCount : Nat
  lastAccessed : Nat
  compressed : Bool
  originalSize : Nat
  compressedSize : Nat
  deriving DecidableEq, Repr

structure CacheTag where
  name : String
  keys : List String
  createdAt : Nat
  deriving DecidableEq, Repr

/-- The advisory per-group config payload is an administrative label never
read by the engine; it is dropped from the model. -/
structure CacheGroup where
  name : String
  keys : List String
  deriving DecidableEq, Repr

structure CacheStats where
  hits : Nat
  misses : Nat
  evictions : Nat
  totalAccesses : Nat
  keyCount : Nat
  deriving DecidableEq, Repr

/-- The mutable state of one Cachly instance: the entry store, tag index,
group registry and counters. -/
structure St where
  items : List (String × CacheItem)
  tags : List (String × CacheTag)
  groups : List (String × CacheGroup)
  stats : CacheStats
  deriving DecidableEq, Repr

def emptyStats : CacheStats := ⟨0, 0, 0, 0, 0⟩

def emptySt : St := ⟨[], [], [], emptyStats⟩

inductive EvictionPolicy
  | lru
  | ttl
  | manual
  | lfu
  deriving DecidableEq, Repr

structure Config where
  maxItems : Nat
  defaultTtl : Nat
  staleWhileRevalidate : Bool
  evictionPolicy : EvictionPolicy
  compression : CompressionConfig
  deriving DecidableEq, Repr

/-! ## Internal helpers of Cachly (src/Cachly.ts) -/

/-- updateStats: keyCount := items.size (the float-valued memory estimate is
dropped from the model). -/
def updateStats (s : St) : St :=
  { s with stats := { s.stats with keyCount := s.items.length } }

/-- isExpired: expiresAt !== undefined && Date.now() > expiresAt. -/
def isExpired (item : CacheItem) (now : Nat) : Bool :=
  match item.expiresAt with
  | some e => decide (e < now)
  | none => false

/-- isStale: staleAt !== undefined && Date.now() > staleAt. -/
def isStale (item : CacheItem) (now : Nat) : Bool :=
  match item.staleAt with
  | some st => decide (st < now)
  | none => false

/-- updateDependencies: register key as a dependent of each currently-resident
dependency (non-resident names are silently skipped). -/
def updateDependencies (items : List (String × CacheItem)) (key : String)
    (deps : List String) : List (String × CacheItem) :=
  deps.foldl
    (fun m dep =>
      mapModify m dep (fun it => { it with dependents := sadd key it.dependents }))
    items

/-- removeDependencies: drop key from each resident dependency's dependents. -/
def removeDependenciesIt (items : List (String × CacheItem)) (key : String)
    (deps : List String) : List (String × CacheItem) :=
  deps.foldl
    (fun m dep =>
      mapModify m dep (fun it => { it with dependents := sremove key it.dependents }))
    items

/-- updateTags: ensure each tag exists in the index, then add the key. -/
def updateTags (tags : List (String × CacheTag)) (key : String)
    (ts : List String) (now : Nat) : List (String × CacheTag) :=
  ts.foldl
    (fun m tag =>
      let m1 := if (mapGet m tag).isSome then m
        else mapSet m tag { name := tag, keys := [], createdAt := now }
      mapModify m1 tag (fun t => { t with keys := sadd key t.keys }))
    tags

/-- removeTags: drop the key from each of its tags, deleting a tag whose
member set becomes empty. -/
def removeTags (tags : List (String × CacheTag)) (key : String)
    (ts : List String) : List (String × CacheTag) :=
  ts.foldl
    (fun m tag =>
      match mapGet m tag with
      | some tagData =>
        let keys := sremove key tagData.keys
        if keys.length = 0 then mapDelete m tag
        else mapSet m tag { tagData with keys := keys }
      | none => m)
    tags

def removeDependenciesSt (s : St) (key : String) (deps : List String) : St :=
  { s with items := removeDependenciesIt s.items key deps }

def removeTagsSt (s : St) (key : String) (ts : List String) : St :=
  { s with tags := removeTags s.tags key ts }

/-! ## delete and the cascading invalidation (Cachly.delete,
Cachly.invalidateDependents).  The source recursion has no cycle guard and can
diverge; the model takes explicit fuel and returns none where the source would
not terminate at that unrolling depth. -/

/-- Folding a single-key delete over a list of keys, threading the state and
aborting on the first failure. -/
def listDelete (d : St → String → Option St) : St → List String → Option St
  | s, [] => some s
  | s, k :: ks =>
    match d s k with
    | none => none
    | some s1 => listDelete d s1 ks

def deleteFuel : Nat → St → String → Option St
  | 0, _, _ => none
  | fuel + 1, s, key =>
    match mapGet s.items key with
    | none => some s
    | some item =>
      let s1 := removeDependenciesSt s key item.dependsOn
      let s2 := removeTagsSt s1 key item.tags
      -- invalidateDependents re-reads the entry and snapshots its dependents
      let snapshot := match mapGet s2.items key with
        | some it => it.dependents
        | none => []
      match listDelete (deleteFuel fuel) s2 snapshot with
      | none => none
      | some s3 => some (updateStats { s3 with items := mapDelete s3.items key })

def deleteListFuel (fuel : Nat) : St → List String → Option St
  | s, [] => some s
  | s, k :: ks =>
    match deleteFuel fuel s k with
    | none => none
    | some s1 => deleteListFuel fuel s1 ks

/-- clear(): drops the entries only — the tag index and group registry are
not touched by the source. -/
def clearOp (s : St) : St :=
  updateStats { s with items := [] }

/-! ## Eviction (Cachly.evictIfNeeded and the three scanning policies) -/

/-- The running strict-minimum scan shared by evictLRU and evictLFU: the
candidate is replaced only on a strictly smaller measure, so the first entry
in iteration order attaining the minimum wins. -/
def argMinScan (f : CacheItem → Nat) (l : List (String × CacheItem))
    (acc : Option String × Nat) : Option String × Nat :=
  l.foldl (fun best kv => if f kv.2 < best.2 then (some kv.1, f kv.2) else best)
    acc

/-- The scan of evictLFU once the accumulator left Infinity; none models the
initial Infinity. -/
def lfuScan (l : List (String × CacheItem)) (acc : Option String × Option Nat) :
    Option String × Option Nat :=
  l.foldl
    (fun best kv =>
      match best.2 with
      | none => (some kv.1, some kv.2.accessCount)
      | some c =>
        if kv.2.accessCount < c then (some kv.1, some kv.2.accessCount) else best)
    acc

/-- The scan of evictLRU: strict less-than against the running minimum,
initialised to Date.now(). -/
def lruVictim (items : List (String × CacheItem)) (now : Nat) : Option String :=
  (argMinScan (fun it => it.lastAccessed) items (none, now)).1

def evictLRU (s : St) (now : Nat) : St :=
  match lruVictim s.items now with
  | some k =>
    updateStats { s with
      items := mapDelete s.items k
      stats := { s.stats with evictions := s.stats.evictions + 1 } }
  | none => s

/-- The scan of evictLFU: strict less-than against the running minimum,
initialised to Infinity (modelled as none). -/
def lfuVictim (items : List (String × CacheItem)) : Option String :=
  (lfuScan items (none, none)).1

def evictLFU (s : St) : St :=
  match lfuVictim s.items with
  | some k =>
    updateStats { s with
      items := mapDelete s.items k
      stats := { s.stats with evictions := s.stats.evictions + 1 } }
  | none => s

/-- evictTTL sweeps: item.expiresAt && now > item.expiresAt (truthiness check
on expiresAt, hence the 0 < e conjunct). -/
def ttlExpiredB (now : Nat) (it : CacheItem) : Bool :=
  match it.expiresAt with
  | some e => decide (0 < e) && decide (e < now)
  | none => false

def evictTTL (s : St) (now : Nat) : St :=
  let keep := s.items.filter (fun kv => ! ttlExpiredB now kv.2)
  let removedCount := s.items.length - keep.length
  updateStats { s with
    items := keep
    stats := { s.stats with evictions := s.stats.evictions + removedCount } }

def evictStep (cfg : Config) (now : Nat) (s : St) : St :=
  match cfg.evictionPolicy with
  | .lru => evictLRU s now
  | .ttl => evictTTL s now
  | .lfu => evictLFU s
  | .manual => s

/-- The guard of evictIfNeeded's while loop:
this.config.maxItems && this.items.size > this.config.maxItems. -/
def evictCond (cfg : Config) (s : St) : Bool :=
  decide (cfg.maxItems ≠ 0) && decide (cfg.maxItems < s.items.length)

/-- evictIfNeeded: while (cond) evict().  evict() re-reads Date.now() at the
top of every evictLRU / evictTTL pass (Cachly.ts:558, 576), so the loop is
driven by a trace of clock readings, one per iteration; none means the
readings were exhausted with the guard still true, i.e. the source loop was
still running at that point of the schedule.  A property of every trace is a
property of every possible clock behaviour. -/
def evictLoop (cfg : Config) : List Nat → St → Option St
  | [], s => if evictCond cfg s then none else some s
  | t :: ts, s =>
    if evictCond cfg s then evictLoop cfg ts (evictStep cfg t s) else some s

/-! ## set / get / has (src/Cachly.ts) -/

/-- The CacheItem literal built by Cachly.set.  Options carry ttl
(?? defaultTtl, then a truthiness check), staleTtl (truthiness check),
dependsOn and tags.  Compression runs when enabled; the model's compressUtil
never throws (JSON.stringify cannot fail on the modelled value domain). -/
def setItem (cfg : Config) (v : JsVal) (ttlOpt staleTtlOpt : Option Nat)
    (dependsOn : List String) (tagList : List String) (now : Nat) : CacheItem :=
  let ttl := ttlOpt.getD cfg.defaultTtl
  let expiresAt := if 0 < ttl then some (now + ttl) else none
  let staleAt := match staleTtlOpt with
    | some st => if 0 < st then some (now + st) else none
    | none => none
  let pv : StoredVal × Nat × Nat × Bool :=
    if cfg.compression.enabled then
      let r := compressUtil v cfg.compression
      (r.data, r.originalSize, r.compressedSize,
        decide (r.originalSize ≠ r.compressedSize))
    else (StoredVal.plain v, 0, 0, false)
  { value := pv.1
    createdAt := now
    expiresAt := expiresAt
    staleAt := staleAt
    dependsOn := sdedup dependsOn
    dependents := []
    tags := sdedup tagList
    accessCount := 0
    lastAccessed := now
    compressed := pv.2.2.2
    originalSize := pv.2.1
    compressedSize := pv.2.2.1 }

def setPre (cfg : Config) (s : St) (key : String) (v : JsVal)
    (ttlOpt staleTtlOpt : Option Nat) (dependsOn : List String)
    (tagList : List String) (now : Nat) : St :=
  let item := setItem cfg v ttlOpt staleTtlOpt dependsOn tagList now
  let s1 := { s with items := mapSet s.items key item }
  let s2 := { s1 with items := updateDependencies s1.items key item.dependsOn }
  let s3 := { s2 with tags := updateTags s2.tags key item.tags now }
  updateStats s3

/-- set followed by evictIfNeeded; `now` is the clock at the set call and
`ticks` the clock readings of the successive eviction-loop iterations (the
clock is monotone, so each tick is at least `now`). -/
def setOp (cfg : Config) (s : St) (key : String) (v : JsVal)
    (ttlOpt staleTtlOpt : Option Nat) (dependsOn : List String)
    (tagList : List String) (now : Nat) (ticks : List Nat) : Option St :=
  let s4 := setPre cfg s key v ttlOpt staleTtlOpt dependsOn tagList now
  evictLoop cfg ticks s4

def bumpMiss (s : St) : St :=
  { s with stats := { s.stats with
      misses := s.stats.misses + 1
      totalAccesses := s.stats.totalAccesses + 1 } }

def bumpHit (s : St) : St :=
  { s with stats := { s.stats with
      hits := s.stats.hits + 1
      totalAccesses := s.stats.totalAccesses + 1 } }

/-- The state produced by a get hit: access bookkeeping on the entry plus the
hit counters. -/
def getHitSt (s : St) (key : String) (item : CacheItem) (now : Nat) : St :=
  bumpHit { s with items :=
    (mapSet s.items key
      { item with
        accessCount := item.accessCount + 1
        lastAccessed := now }) }

/-- Cachly.get.  Returns (result, state); a none overall result models an
abnormal completion (cascade divergence inside the lazy-expiry delete). -/
def getOp (cfg : Config) (s : St) (key : String) (now : Nat) :
    Option (Option StoredVal × St) :=
  match mapGet s.items key with
  | none => some (none, bumpMiss s)
  | some item =>
    if isExpired item now then
      match deleteFuel (s.items.length + 1) s key with
      | none => none
      | some s1 => some (none, bumpMiss s1)
    else
      let s1 := getHitSt s key item now
      if item.compressed && cfg.compression.enabled then
        match decompressUtil cfg.compression.algorithm item.value with
        | some v => some (some (StoredVal.plain v), s1)
        | none => some (none, s1)
      else
        some (some item.value, s1)

/-- Cachly.has: existence check respecting expiry, no statistics mutation. -/
def hasOp (s : St) (key : String) (now : Nat) : Bool :=
  match mapGet s.items key with
  | some item => ! isExpired item now
  | none => false

/-! ## getOrComputeWithStale (src/Cachly.ts lines 252-321)

The loader is modelled as an always-succeeding computation producing loadVal;
the asynchronous background refresh of the stale branch is represented by the
bgScheduled flag (the refresh itself has not run when the call returns).
A none result models abnormal completion. -/

structure GocwsOut where
  value : Option StoredVal
  st : St
  syncLoad : Bool
  bgScheduled : Bool
  deriving DecidableEq, Repr

def gocwsOp (cfg : Config) (s : St) (key : String) (loadVal : JsVal)
    (ttlOpt staleTtlOpt : Option Nat) (dependsOn tagList : List String)
    (now : Nat) (ticks : List Nat) : Option GocwsOut :=
  let syncBranch : Option GocwsOut :=
    match setOp cfg s key loadVal ttlOpt staleTtlOpt dependsOn tagList now
        ticks with
    | none => none
    | some s1 => some ⟨some (.plain loadVal), s1, true, false⟩
  match mapGet s.items key with
  | some item =>
    if ! isExpired item now then
      -- fresh branch: serve the cached value
      let s1 := getHitSt s key item now
      if item.compressed && cfg.compression.enabled then
        match decompressUtil cfg.compression.algorithm item.value with
        | some v => some ⟨some (.plain v), s1, false, false⟩
        | none => none  -- decompression throw is uncaught on this path
      else some ⟨some item.value, s1, false, false⟩
    else if isStale item now && cfg.staleWhileRevalidate then
      -- stale branch: serve the cached value, schedule one background refresh
      let s1 := bumpHit s
      if item.compressed && cfg.compression.enabled then
        match decompressUtil cfg.compression.algorithm item.value with
        | some v => some ⟨some (.plain v), s1, false, true⟩
        | none => none
      else some ⟨some item.value, s1, false, true⟩
    else syncBranch
  | none => syncBranch

/-! ## Tag invalidation and groups (src/Cachly.ts lines 656-730) -/

def invalidateByTagOp (s : St) (tag : String) : Option (List String × St) :=
  match mapGet s.tags tag with
  | none => some ([], s)
  | some tagData =>
    let affectedKeys := tagData.keys
    match deleteListFuel (s.items.length + 1) s affectedKeys with
    | none => none
    | some s1 => some (affectedKeys, { s1 with tags := mapDelete s1.tags tag })

def createGroupOp (s : St) (name : String) : St :=
  { s with groups := mapSet s.groups name { name := name, keys := [] } }

def addToGroupOp (s : St) (name key : String) : St :=
  match mapGet s.groups name with
  | some g =>
    { s with groups := mapSet s.groups name { g with keys := sadd key g.keys } }
  | none => s

def deleteGroupOp (s : St) (name : String) : Option St :=
  match mapGet s.groups name with
  | none => some s
  | some g =>
    match deleteListFuel (s.items.length + 1) s g.keys with
    | none => none
    | some s1 => some { s1 with groups := mapDelete s1.groups name }

/-- One step of the removeTags fold. -/
def removeTagStep (key : String) (m : List (String × CacheTag)) (tag : String) :
    List (String × CacheTag) :=
  match mapGet m tag with
  | some tagData =>
    let keys := sremove key tagData.keys
    if keys.length = 0 then mapDelete m tag
    else mapSet m tag { tagData with keys := keys }
  | none => m

/-- What one removeTags step does at each key of the tag index. -/
def removeTagAt (key : String) (o : Option CacheTag) : Option CacheTag :=
  match o with
  | some tg =>
    let ks := sremove key tg.keys
    if ks.length = 0 then none else some { tg with keys := ks }
  | none => none

/-- One step of the updateTags fold. -/
def updateTagStep (key : String) (now : Nat) (m : List (String × CacheTag))
    (tag : String) : List (String × CacheTag) :=
  let m1 := if (mapGet m tag).isSome then m
    else mapSet m tag { name := tag, keys := [], createdAt := now }
  mapModify m1 tag (fun t => { t with keys := sadd key t.keys })

def updateTagAt (key tag : String) (now : Nat) (o : Option CacheTag) :
    Option CacheTag :=
  match o with
  | some tg => some { tg with keys := sadd key tg.keys }
  | none => some { name := tag, keys := sadd key [], createdAt := now }

/-! ## Dependency edges, reachability, and the state-shrinking relation -/

/-- A live dependency back-edge: v is listed among u's dependents and u is
resident.  Deleting u must cascade to v. -/
def edge (s : St) (u v : String) : Prop :=
  ∃ it, mapGet s.items u = some it ∧ v ∈ it.dependents

/-- Executable version of edge, for concrete witnesses. -/
def edgeB (s : St) (u v : String) : Bool :=
  match mapGet s.items u with
  | some it => decide (v ∈ it.dependents)
  | none => false

/-- Transitive (non-reflexive) reachability along dependency back-edges. -/
inductive Reaches (s : St) : String → String → Prop
  | single {u v : String} : edge s u v → Reaches s u v
  | tail {u v w : String} : Reaches s u v → edge s v w → Reaches s u w

/-- s' is obtained from s by deletions and edge/tag-membership removals only:
every surviving entry keeps its dependsOn and tags and loses at most some
dependents; every surviving tag loses at most some members. -/
structure StSub (s' s : St) : Prop where
  items_le : ∀ k it', mapGet s'.items k = some it' →
    ∃ it, mapGet s.items k = some it ∧ it'.dependents ⊆ it.dependents ∧
      it'.dependsOn = it.dependsOn ∧ it'.tags = it.tags
  tags_le : ∀ t tg', mapGet s'.tags t = some tg' →
    ∃ tg, mapGet s.tags t = some tg ∧ tg'.keys ⊆ tg.keys

/-- What one completed deleteFuel call guarantees: nodup preservation, the
state only shrinks, the key is gone, every edge survives or its target is
gone, and every removed entry was the key or a transitive dependent and is
unlinked from its dependencies' dependents sets and from its tags. -/
def DelPost (s : St) (key : String) (s' : St) : Prop :=
  ((s'.items.map Prod.fst).Nodup) ∧ ((s'.tags.map Prod.fst).Nodup) ∧
  StSub s' s ∧
  mapGet s'.items key = none ∧
  (∀ u v, edge s u v → edge s' u v ∨ mapGet s'.items v = none) ∧
  (∀ x itx, mapGet s.items x = some itx → mapGet s'.items x = none →
    (x = key ∨ Reaches s key x) ∧
    (∀ dep, dep ∈ itx.dependsOn → ∀ itd, mapGet s'.items dep = some itd →
      x ∉ itd.dependents) ∧
    (∀ t, t ∈ itx.tags → ∀ tg, mapGet s'.tags t = some tg → x ∉ tg.keys))

/-- The analogous contract of a completed deleteListFuel run. -/
def DelListPost (s : St) (ks : List String) (s' : St) : Prop :=
  ((s'.items.map Prod.fst).Nodup) ∧ ((s'.tags.map Prod.fst).Nodup) ∧
  StSub s' s ∧
  (∀ k, k ∈ ks → mapGet s'.items k = none) ∧
  (∀ u v, edge s u v → edge s' u v ∨ mapGet s'.items v = none) ∧
  (∀ x itx, mapGet s.items x = some itx → mapGet s'.items x = none →
    (∃ k, k ∈ ks ∧ (x = k ∨ Reaches s k x)) ∧
    (∀ dep, dep ∈ itx.dependsOn → ∀ itd, mapGet s'.items dep = some itd →
      x ∉ itd.dependents) ∧
    (∀ t, t ∈ itx.tags → ∀ tg, mapGet s'.tags t = some tg → x ∉ tg.keys))

/-! ## Partition assigner (src/utils/Partitioning.ts)

JavaScript numbers appearing here are integers or NaN; they are modelled by
JsNum.  charCodeAt yields UTF-16 code units (Char.toNat agrees on the BMP
payloads of interest); ''.charCodeAt(0) is NaN, and NaN % n is NaN. -/

inductive PartStrategy
  | hash
  | range
  | custom
  deriving DecidableEq, Repr

structure PartitioningConfig where
  enabled : Bool
  strategy : PartStrategy
  partitions : Nat
  partitionKey : Option (String → String)

inductive JsNum
  | int (n : Int)
  | nan
  deriving DecidableEq, Repr

/-- Coercion to a signed 32-bit integer (the effect of hash & hash and of the
32-bit shift). -/
def toInt32 (x : Int) : Int := (x + 2 ^ 31) % 2 ^ 32 - 2 ^ 31

/-- The rolling hash: hash = ((hash << 5) - hash) + charCode; hash &= hash. -/
def hashStringVal (key : String) : Int :=
  key.data.foldl (fun h c => toInt32 (toInt32 (h * 32) - h + c.toNat)) 0

/-- A JS modulo whose left operand is a nonnegative integer: n % 0 is NaN. -/
def jsModNat (a n : Nat) : JsNum :=
  if n = 0 then .nan else .int (a % n : Nat)

/-- hashPartition: Math.abs(hash) % partitions. -/
def hashPartition (cfg : PartitioningConfig) (key : String) : JsNum :=
  jsModNat (hashStringVal key).natAbs cfg.partitions

/-- rangePartition: key.charAt(0).toLowerCase().charCodeAt(0) % partitions;
for the empty key charCodeAt(0) is NaN and the result is NaN. -/
def rangePartition (cfg : PartitioningConfig) (key : String) : JsNum :=
  match key.data with
  | [] => .nan
  | c :: _ => jsModNat c.toLower.toNat cfg.partitions

/-- customPartition in the source ignores any caller-supplied function and
falls through to the hash. -/
def customPartition (cfg : PartitioningConfig) (key : String) : JsNum :=
  hashPartition cfg key

/-- PartitioningUtil.getPartition. -/
def getPartition (cfg : PartitioningConfig) (key : String) : JsNum :=
  if ! cfg.enabled then .int 0
  else
    let partitionKey := match cfg.partitionKey with
      | some f => f key
      | none => key
    match cfg.strategy with
    | .hash => hashPartition cfg partitionKey
    | .range => rangePartition cfg partitionKey
    | .custom => customPartition cfg partitionKey

structure PartitionInfo where
  id : Nat
  keyCount : Nat
  memoryUsage : Nat
  hitRate : Nat
  deriving DecidableEq, Repr

/-- PartitioningUtil.isBalanced: standard deviation of the per-partition key
counts below 20% of their mean.  Modelled exactly in rationals: for the
nonnegative quantities involved, sd < avg/5 iff 25 * variance < avg^2; an
empty partitions map yields NaN comparisons in JS, i.e. false. -/
def isBalancedCounts (keyCounts : List Nat) : Bool :=
  if keyCounts.length = 0 then false
  else
    let n : ℚ := keyCounts.length
    let avg : ℚ := (keyCounts.map (fun c => (c : ℚ))).sum / n
    let variance : ℚ := (keyCounts.map (fun c => ((c : ℚ) - avg) ^ 2)).sum / n
    decide (25 * variance < avg ^ 2)

def utilIsBalanced (ps : List PartitionInfo) : Bool :=
  isBalancedCounts (ps.map (fun p => p.keyCount))

/-- JavaScript a || b for a : boolean | undefined. -/
def jsOrBool (a : Option Bool) (b : Bool) : Bool :=
  match a with
  | some true => true
  | _ => b

/-- Cachly.isBalanced: this.partitioningUtil?.isBalanced() || true, where the
optional utility carries the partitions map (given by its PartitionInfo
values). -/
def cachlyIsBalanced (putil : Option (List PartitionInfo)) : Bool :=
  jsOrBool (putil.map utilIsBalanced) true

/-! ## Circuit breaker (src/utils/CircuitBreaker.ts)

The guarded operation is modelled by its outcome; the loaderInvoked flag
records whether the operation ran.  The opened constructor renders the
source's 'open' state (a Lean keyword). -/

inductive CBMode
  | closed
  | opened
  | halfOpen
  deriving DecidableEq, Repr

structure CircuitBreakerConfig where
  enabled : Bool
  failureThreshold : Nat
  recoveryTimeout : Nat
  monitorWindow : Option Nat
  deriving DecidableEq, Repr

structure CircuitBreakerState where
  state : CBMode
  failureCount : Nat
  lastFailureTime : Nat
  nextAttemptTime : Nat
  deriving DecidableEq, Repr

/-- The breaker object: the published state record, the private counter kept
in sync with it, and the time-windowed failure log. -/
structure CB where
  state : CircuitBreakerState
  failureCount : Nat
  monitorWindow : List Nat
  deriving DecidableEq, Repr

def cbInit : CB := ⟨⟨.closed, 0, 0, 0⟩, 0, []⟩

def onSuccess (cb : CB) : CB :=
  { cb with
    failureCount := 0
    state := { cb.state with failureCount := 0, state := .closed }
    monitorWindow := [] }

def onFailure (cfg : CircuitBreakerConfig) (cb : CB) (now : Nat) : CB :=
  let fc := cb.failureCount + 1
  let windowSize := cfg.monitorWindow.getD 60000
  let w := (cb.monitorWindow ++ [now]).filter (fun t => now - t < windowSize)
  let st1 : CircuitBreakerState :=
    { cb.state with failureCount := fc, lastFailureTime := now }
  let cb1 : CB := { state := st1, failureCount := fc, monitorWindow := w }
  if cfg.failureThreshold ≤ fc then
    { cb1 with
      state := { st1 with
        state := .opened
        nextAttemptTime := now + cfg.recoveryTimeout } }
  else cb1

inductive LoaderOutcome
  | succeeds (v : JsVal)
  | fails
  deriving DecidableEq, Repr

inductive ExecResult
  | opValue (v : JsVal)
  | fallbackValue
  | breakerOpenError
  | opError
  deriving DecidableEq, Repr

structure ExecOut where
  result : ExecResult
  cb : CB
  loaderInvoked : Bool
  deriving DecidableEq, Repr

/-- CircuitBreaker.execute. -/
def cbExecute (cfg : CircuitBreakerConfig) (cb : CB) (now : Nat)
    (outcome : LoaderOutcome) (hasFallback : Bool) : ExecOut :=
  if ! cfg.enabled then
    match outcome with
    | .succeeds v => ⟨.opValue v, cb, true⟩
    | .fails => ⟨.opError, cb, true⟩
  else
    match (if cb.state.state = .opened then
        (if now < cb.state.nextAttemptTime then none
         else some { cb with state := { cb.state with state := .halfOpen } })
      else some cb) with
    | none => ⟨if hasFallback then .fallbackValue else .breakerOpenError, cb, false⟩
    | some cb1 =>
      match outcome with
      | .succeeds v => ⟨.opValue v, onSuccess cb1, true⟩
      | .fails =>
        ⟨if hasFallback then .fallbackValue else .opError,
          onFailure cfg cb1 now, true⟩

/-- A run of consecutive loader failures through the breaker, no fallback. -/
def runFailures (cfg : CircuitBreakerConfig) (cb : CB) (times : List Nat) : CB :=
  times.foldl (fun c t => (cbExecute cfg c t .fails false).cb) cb

/-! ## Public operation sequences (for reachable-state invariants) -/

/-- One public engine operation, with its clock reading where the source
reads Date.now(). -/
inductive Op
  | opSet (key : String) (v : JsVal) (ttlOpt staleTtlOpt : Option Nat)
      (dependsOn tagList : List String) (now : Nat) (ticks : List Nat)
  | opGet (key : String) (now : Nat)
  | opDelete (key : String)
  | opInvalidateByTag (tag : String)
  | opCreateGroup (name : String)
  | opAddToGroup (name key : String)
  | opDeleteGroup (name : String)
  | opClear
  deriving DecidableEq, Repr

def stepOp (cfg : Config) (s : St) : Op → Option St
  | .opSet key v t st d tg now ticks => setOp cfg s key v t st d tg now ticks
  | .opGet key now => (getOp cfg s key now).map Prod.snd
  | .opDelete key => deleteFuel (s.items.length + 1) s key
  | .opInvalidateByTag tag => (invalidateByTagOp s tag).map Prod.snd
  | .opCreateGroup name => some (createGroupOp s name)
  | .opAddToGroup name key => some (addToGroupOp s name key)
  | .opDeleteGroup name => deleteGroupOp s name
  | .opClear => some (clearOp s)

def runOps (cfg : Config) : St → List Op → Option St
  | s, [] => some s
  | s, op :: ops =>
    match stepOp cfg s op with
    | none => none
    | some s1 => runOps cfg s1 ops

/-- The freshness guard on set: the key is not resident and occurs in no
resident entry's dependents set (rules out overwrites and re-use of a name
still dangling after an eviction). -/
def freshOk (s : St) : Op → Bool
  | .opSet key _ _ _ _ _ _ _ =>
    !(mapGet s.items key).isSome &&
      s.items.all (fun kv => decide (key ∉ kv.2.dependents))
  | _ => true

def guardedRun (cfg : Config) : St → List Op → Bool
  | _, [] => true
  | s, op :: ops =>
    freshOk s op &&
      (match stepOp cfg s op with
      | none => true
      | some s1 => guardedRun cfg s1 ops)

/-- The forward direction of the dependency-edge symmetry invariant:
membership in a resident entry's dependents implies the converse dependsOn
membership, for resident pairs. -/
def SymFwd (s : St) : Prop :=
  ∀ A B itB itA, mapGet s.items B = some itB → A ∈ itB.dependents →
    mapGet s.items A = some itA → B ∈ itA.dependsOn

/-- Executable form of the forward symmetry direction. -/
def symFwdB (s : St) : Bool :=
  s.items.all (fun bkv =>
    bkv.2.dependents.all (fun a =>
      match mapGet s.items a with
      | some ita => decide (bkv.1 ∈ ita.dependsOn)
      | none => true))

/-- Executable form of the full two-sided symmetry invariant, as the claim
states it: for resident A and B, A ∈ entries[B].dependents iff
B ∈ entries[A].dependsOn. -/
def symIffB (s : St) : Bool :=
  symFwdB s &&
    s.items.all (fun akv =>
      akv.2.dependsOn.all (fun b =>
        match mapGet s.items b with
        | some itb => decide (akv.1 ∈ itb.dependents)
        | none => true))

/-! ## Concrete instances used by the claim-level results -/

def cfgPlain : Config := ⟨1000, 0, false, .lru, ⟨false, .gzip, 1024⟩⟩

def cfgTtlOne : Config := ⟨1, 0, false, .ttl, ⟨false, .gzip, 1024⟩⟩

def cfgSwrC : Config := ⟨1000, 0, true, .lru, ⟨false, .gzip, 1024⟩⟩

def cfgComp : Config := ⟨1000, 0, false, .lru, ⟨true, .gzip, 1000⟩⟩

def cfgLfuTwo : Config := ⟨2, 0, false, .lfu, ⟨false, .gzip, 1024⟩⟩

def cfgLruTwo : Config := ⟨2, 0, false, .lru, ⟨false, .gzip, 1024⟩⟩

def cfgHash4 : PartitioningConfig := ⟨true, .hash, 4, none⟩

def cfgRange4 : PartitioningConfig := ⟨true, .range, 4, none⟩

def cbCfg2 : CircuitBreakerConfig := ⟨true, 2, 100, none⟩

/-- The cache state after set(k, v1, ttl 100, staleTtl 200) at t = 0 under an
engine with stale-while-revalidate enabled. -/
def c2St : St :=
  (setOp cfgSwrC emptySt "k" (.jstr "v1") (some 100) (some 200) [] [] 0 []).getD
    emptySt

/-- The state after set('small-key', 'small') under compression
{enabled, gzip, threshold 1000}: the serialized size is below the threshold. -/
def c7St : St :=
  (setOp cfgComp emptySt "small-key" (.jstr "small") none none [] [] 0 []).getD
    emptySt

/-- A state with one tagged entry and one registered group, to exercise
clear(). -/
def c8St : St :=
  createGroupOp
    ((setOp cfgPlain emptySt "user:1" (.jstr "u") none none [] ["users"]
      0 []).getD emptySt) "g"

/-! ## C1 -/

def cfgLfuOne : Config := ⟨1, 0, false, .lfu, ⟨false, .gzip, 1024⟩⟩

/-- One never-expiring entry (no ttl option, defaultTtl 0, so expiresAt is
undefined) resident under maxItems = 1 with the ttl eviction policy. -/
def c1St : St :=
  (setOp cfgTtlOne emptySt "a" (.jstr "va") none none [] [] 0 []).getD
    emptySt

/-- One lfu entry resident under maxItems = 1. -/
def c1fSt : St :=
  (setOp cfgLfuOne emptySt "a" (.jstr "va") none none [] [] 0 []).getD emptySt

/-- Two lru entries (written at t = 1 and t = 2) under maxItems = 2. -/
def c1wSt : St :=
  (runOps cfgLruTwo emptySt
    [.opSet "a" (.jstr "va") none none [] [] 1 [],
     .opSet "b" (.jstr "vb") none none [] [] 2 []]).getD emptySt

/-! ## C3 -/

/-- set('A') declaring a dependency on the not-yet-resident 'B', then a plain
set('B'). -/
def c3Ops : List Op :=
  [.opSet "A" (.jstr "va") none none ["B"] [] 0 [],
   .opSet "B" (.jstr "vb") none none [] [] 1 []]

def c3St : St := (runOps cfgPlain emptySt c3Ops).getD emptySt

/-- set('B'), then set('A') depending on 'B', then a get and a cascading
delete of 'B'. -/
def c3wOps : List Op :=
  [.opSet "B" (.jstr "vb") none none [] [] 0 [],
   .opSet "A" (.jstr "va") none none ["B"] [] 1 [],
   .opGet "A" 2,
   .opDelete "B"]

def c3wSt : St := (runOps cfgPlain emptySt c3wOps).getD emptySt

/-! ## C4 -/

/-- A three-level dependency chain: parent (tagged 't'), child dependsOn
parent, grandchild dependsOn child, each set while its dependency was
resident. -/
def chainSt : St :=
  (runOps cfgPlain emptySt
    [.opSet "parent" (.jstr "p") none none [] ["t"] 0 [],
     .opSet "child" (.jstr "c") none none ["parent"] [] 1 [],
     .opSet "grandchild" (.jstr "g") none none ["child"] [] 2 []]).getD emptySt

def chainDel : St := (deleteFuel 4 chainSt "parent").getD emptySt

/-! ## C5 -/

/-- Two entries tagged 't' set under maxItems = 1 (lfu): the second set
evicts 'a', but eviction never unlinks the tag index. -/
def c5St : St :=
  (runOps cfgLfuOne emptySt
    [.opSet "a" (.jstr "va") none none [] ["t"] 0 [],
     .opSet "b" (.jstr "vb") none none [] ["t"] 1 [2]]).getD emptySt

def c5Out : List String × St := (invalidateByTagOp c5St "t").getD ([], emptySt)

/-- A tagged entry with an untagged dependent. -/
def c5bSt : St :=
  (runOps cfgPlain emptySt
    [.opSet "b" (.jstr "vb") none none [] ["t"] 0 [],
     .opSet "c" (.jstr "vc") none none ["b"] [] 1 []]).getD emptySt

def c5bOut : List String × St :=
  (invalidateByTagOp c5bSt "t").getD ([], emptySt)

/-- Three entries under the plain config: two tagged 'users', one tagged
'posts'. -/
def c5wSt : St :=
  (runOps cfgPlain emptySt
    [.opSet "user:1" (.jstr "u1") none none [] ["users"] 0 [],
     .opSet "user:2" (.jstr "u2") none none [] ["users"] 1 [],
     .opSet "post:1" (.jstr "p1") none none [] ["posts"] 2 []]).getD emptySt

def c5wOut : List String × St :=
  (invalidateByTagOp c5wSt "users").getD ([], emptySt)

def cfgOff4 : PartitioningConfig := ⟨false, .hash, 4, none⟩


/-! ## Theorems -/

theorem mapGet_eq_none_of_not_mem {α : Type} {m : List (String × α)}
    {k : String} (h : k ∉ m.map Prod.fst) : mapGet m k = none := by
  induction m with
  | nil => simp [mapGet]
  | cons p rest ih =>
    simp only [List.map_cons, List.mem_cons, not_or] at h
    have hpk : ¬ p.1 = k := fun hh => h.1 hh.symm
    simp [mapGet, hpk, ih h.2]

theorem mapGet_mapSet {α : Type} (m : List (String × α)) (k u : String) (v : α) :
    mapGet (mapSet m k v) u = if u = k then some v else mapGet m u := by
  induction m with
  | nil =>
    by_cases huk : u = k
    · simp [mapSet, mapGet, huk]
    · have hku : ¬ k = u := fun h => huk h.symm
      simp [mapSet, mapGet, huk, hku]
  | cons p rest ih =>
    by_cases hpk : p.1 = k
    · by_cases huk : u = k
      · simp [mapSet, mapGet, hpk, huk]
      · have hku : ¬ k = u := fun h => huk h.symm
        have hpu : ¬ p.1 = u := fun h => huk (by rw [← h, hpk])
        simp [mapSet, mapGet, hpk, huk, hku, hpu]
    · by_cases hpu : p.1 = u
      · have huk : ¬ u = k := fun h => hpk (by rw [hpu, h])
        simp [mapSet, mapGet, hpk, hpu, huk]
      · simp [mapSet, mapGet, hpk, hpu, ih]

theorem mapGet_mapDelete {α : Type}
    (m : List (String × α)) (k u : String) (hnd : (m.map Prod.fst).Nodup) :
    mapGet (mapDelete m k) u = if u = k then none else mapGet m u := by
  induction m with
  | nil => simp [mapDelete, mapGet]
  | cons p rest ih =>
    simp only [List.map_cons, List.nodup_cons] at hnd
    by_cases hpk : p.1 = k
    · by_cases huk : u = k
      · simp only [mapDelete, if_pos hpk, if_pos huk]
        exact huk ▸ mapGet_eq_none_of_not_mem (hpk ▸ hnd.1)
      · have hku : ¬ k = u := fun h => huk h.symm
        have hpu : ¬ p.1 = u := fun h => huk (by rw [← h, hpk])
        simp [mapDelete, mapGet, hpk, huk, hku, hpu]
    · by_cases hpu : p.1 = u
      · have huk : ¬ u = k := fun h => hpk (by rw [hpu, h])
        simp [mapDelete, mapGet, hpk, hpu, huk]
      · simp [mapDelete, mapGet, hpk, hpu, ih hnd.2]

theorem mapGet_mapModify {α : Type} (m : List (String × α)) (k u : String)
    (f : α → α) :
    mapGet (mapModify m k f) u =
      if u = k then (mapGet m u).map f else mapGet m u := by
  induction m with
  | nil => simp [mapModify, mapGet]
  | cons p rest ih =>
    by_cases hpk : p.1 = k
    · by_cases huk : u = k
      · have hpu : p.1 = u := by rw [hpk, huk]
        simp [mapModify, mapGet, hpk, huk, hpu]
      · have hku : ¬ k = u := fun h => huk h.symm
        have hpu : ¬ p.1 = u := fun h => huk (by rw [← h, hpk])
        simp [mapModify, mapGet, hpk, huk, hku, hpu]
    · by_cases hpu : p.1 = u
      · have huk : ¬ u = k := fun h => hpk (by rw [hpu, h])
        simp [mapModify, mapGet, hpk, hpu, huk]
      · simp [mapModify, mapGet, hpk, hpu, ih]

theorem mapSet_not_mem_keys {α : Type} {m : List (String × α)} {x k : String}
    {v : α} (hx : x ∉ m.map Prod.fst) (hxk : x ≠ k) :
    x ∉ (mapSet m k v).map Prod.fst := by
  induction m with
  | nil => simpa [mapSet] using fun h => hxk h
  | cons p rest ih =>
    simp only [List.map_cons, List.mem_cons, not_or] at hx
    by_cases hpk : p.1 = k
    · simp only [mapSet, if_pos hpk, List.map_cons, List.mem_cons, not_or]
      exact ⟨hxk, hx.2⟩
    · simp only [mapSet, if_neg hpk, List.map_cons, List.mem_cons, not_or]
      exact ⟨hx.1, ih hx.2⟩

theorem mapSet_keys_nodup {α : Type} (m : List (String × α)) (k : String)
    (v : α) (hnd : (m.map Prod.fst).Nodup) :
    ((mapSet m k v).map Prod.fst).Nodup := by
  induction m with
  | nil => simp [mapSet]
  | cons p rest ih =>
    simp only [List.map_cons, List.nodup_cons] at hnd
    by_cases hpk : p.1 = k
    · simp only [mapSet, if_pos hpk, List.map_cons, List.nodup_cons]
      exact ⟨hpk ▸ hnd.1, hnd.2⟩
    · simp only [mapSet, if_neg hpk, List.map_cons, List.nodup_cons]
      exact ⟨mapSet_not_mem_keys hnd.1 hpk, ih hnd.2⟩

theorem mapDelete_keys_sub {α : Type} (m : List (String × α)) (k : String) :
    ((mapDelete m k).map Prod.fst) ⊆ m.map Prod.fst := by
  induction m with
  | nil => simp [mapDelete]
  | cons p rest ih =>
    by_cases hpk : p.1 = k
    · simp only [mapDelete, if_pos hpk, List.map_cons]
      exact fun x hx => List.mem_cons_of_mem _ hx
    · simp only [mapDelete, if_neg hpk, List.map_cons]
      intro x hx
      rcases List.mem_cons.mp hx with h | h
      · exact List.mem_cons.mpr (Or.inl h)
      · exact List.mem_cons.mpr (Or.inr (ih h))

theorem mapDelete_keys_nodup {α : Type} (m : List (String × α)) (k : String)
    (hnd : (m.map Prod.fst).Nodup) :
    ((mapDelete m k).map Prod.fst).Nodup := by
  induction m with
  | nil => simp [mapDelete]
  | cons p rest ih =>
    simp only [List.map_cons, List.nodup_cons] at hnd
    by_cases hpk : p.1 = k
    · simpa [mapDelete, hpk] using hnd.2
    · simp only [mapDelete, if_neg hpk, List.map_cons, List.nodup_cons]
      exact ⟨fun hmem => hnd.1 (mapDelete_keys_sub rest k hmem), ih hnd.2⟩

theorem mapModify_keys {α : Type} (m : List (String × α)) (k : String)
    (f : α → α) : (mapModify m k f).map Prod.fst = m.map Prod.fst := by
  induction m with
  | nil => simp [mapModify]
  | cons p rest ih =>
    by_cases hpk : p.1 = k
    · simp [mapModify, hpk]
    · simp [mapModify, hpk, ih]

theorem mapDelete_length {α : Type} (m : List (String × α)) (k : String)
    (hmem : k ∈ m.map Prod.fst) :
    (mapDelete m k).length + 1 = m.length := by
  induction m with
  | nil => simp at hmem
  | cons p rest ih =>
    by_cases hpk : p.1 = k
    · simp [mapDelete, hpk]
    · simp only [List.map_cons, List.mem_cons] at hmem
      rcases hmem with h | h
      · exact absurd h.symm hpk
      · simp only [mapDelete, if_neg hpk, List.length_cons]
        rw [← ih h]

theorem mapDelete_length_le {α : Type} (m : List (String × α)) (k : String) :
    (mapDelete m k).length ≤ m.length := by
  induction m with
  | nil => simp [mapDelete]
  | cons p rest ih =>
    by_cases hpk : p.1 = k
    · simp [mapDelete, hpk]
    · simp only [mapDelete, if_neg hpk, List.length_cons]
      omega

theorem mapSet_length_of_mem {α : Type} (m : List (String × α)) (k : String)
    (v : α) (hmem : k ∈ m.map Prod.fst) :
    (mapSet m k v).length = m.length := by
  induction m with
  | nil => simp at hmem
  | cons p rest ih =>
    by_cases hpk : p.1 = k
    · simp [mapSet, hpk]
    · simp only [List.map_cons, List.mem_cons] at hmem
      rcases hmem with h | h
      · exact absurd h.symm hpk
      · simp only [mapSet, if_neg hpk, List.length_cons]
        rw [ih h]

theorem mapSet_length_of_not_mem {α : Type} (m : List (String × α)) (k : String)
    (v : α) (hmem : k ∉ m.map Prod.fst) :
    (mapSet m k v).length = m.length + 1 := by
  induction m with
  | nil => simp [mapSet]
  | cons p rest ih =>
    simp only [List.map_cons, List.mem_cons, not_or] at hmem
    have hpk : ¬ p.1 = k := fun h => hmem.1 h.symm
    simp only [mapSet, if_neg hpk, List.length_cons]
    rw [ih hmem.2]

theorem mapGet_isSome_iff_mem {α : Type} (m : List (String × α)) (k : String) :
    (mapGet m k).isSome ↔ k ∈ m.map Prod.fst := by
  induction m with
  | nil => simp [mapGet]
  | cons p rest ih =>
    by_cases hpk : p.1 = k
    · simp [mapGet, hpk]
    · simp only [mapGet, if_neg hpk, List.map_cons, List.mem_cons]
      rw [ih]
      constructor
      · exact Or.inr
      · rintro (h | h)
        · exact absurd h.symm hpk
        · exact h

theorem listDelete_eq (fuel : Nat) :
    ∀ (ks : List String) (s : St),
      listDelete (deleteFuel fuel) s ks = deleteListFuel fuel s ks := by
  intro ks
  induction ks with
  | nil => intro s; rfl
  | cons k ks ih =>
    intro s
    simp only [listDelete, deleteListFuel]
    cases deleteFuel fuel s k with
    | none => rfl
    | some s1 => exact ih s1

/-! ## Small set lemmas -/

theorem sremove_idem (x : String) (l : List String) :
    sremove x (sremove x l) = sremove x l := by
  simp [sremove, List.filter_filter]

theorem not_mem_sremove (x : String) (l : List String) :
    x ∉ sremove x l := by
  simp [sremove]

theorem sremove_subset (x : String) (l : List String) :
    sremove x l ⊆ l := by
  intro a ha
  exact (List.mem_filter.mp ha).1

theorem sadd_idem (x : String) (l : List String) :
    sadd x (sadd x l) = sadd x l := by
  by_cases h : x ∈ l
  · simp [sadd, h]
  · simp [sadd, h]

theorem mem_sadd (x y : String) (l : List String) :
    y ∈ sadd x l ↔ y = x ∨ y ∈ l := by
  by_cases h : x ∈ l
  · simp only [sadd, if_pos h]
    constructor
    · exact Or.inr
    · rintro (rfl | hy)
      · exact h
      · exact hy
  · simp only [sadd, if_neg h, List.mem_append, List.mem_singleton]
    tauto

/-! ## Pointwise characterization of the dependency / tag folds -/

theorem mapGet_removeDependenciesIt (items : List (String × CacheItem))
    (key : String) (deps : List String) (u : String) :
    mapGet (removeDependenciesIt items key deps) u =
      if u ∈ deps then
        (mapGet items u).map
          (fun it => { it with dependents := sremove key it.dependents })
      else mapGet items u := by
  induction deps generalizing items with
  | nil => simp [removeDependenciesIt]
  | cons d ds ih =>
    have step : removeDependenciesIt items key (d :: ds) =
        removeDependenciesIt
          (mapModify items d
            (fun it => { it with dependents := sremove key it.dependents}))
          key ds := by
      simp [removeDependenciesIt]
    rw [step, ih]
    by_cases hds : u ∈ ds
    · simp only [if_pos hds, List.mem_cons, if_pos (Or.inr hds)]
      rw [mapGet_mapModify]
      by_cases hud : u = d
      · simp only [if_pos hud, Option.map_map]
        cases mapGet items u with
        | none => simp
        | some it => simp [Function.comp, sremove_idem]
      · simp [hud]
    · by_cases hud : u = d
      · simp only [if_neg hds, List.mem_cons, if_pos (Or.inl hud)]
        rw [mapGet_mapModify, if_pos hud]
      · have : u ∉ (d :: ds) := by
          simp [hud, hds]
        simp only [if_neg hds, if_neg this]
        rw [mapGet_mapModify, if_neg hud]

theorem mapGet_updateDependencies (items : List (String × CacheItem))
    (key : String) (deps : List String) (u : String) :
    mapGet (updateDependencies items key deps) u =
      if u ∈ deps then
        (mapGet items u).map
          (fun it => { it with dependents := sadd key it.dependents })
      else mapGet items u := by
  induction deps generalizing items with
  | nil => simp [updateDependencies]
  | cons d ds ih =>
    have step : updateDependencies items key (d :: ds) =
        updateDependencies
          (mapModify items d
            (fun it => { it with dependents := sadd key it.dependents}))
          key ds := by
      simp [updateDependencies]
    rw [step, ih]
    by_cases hds : u ∈ ds
    · simp only [if_pos hds, List.mem_cons, if_pos (Or.inr hds)]
      rw [mapGet_mapModify]
      by_cases hud : u = d
      · simp only [if_pos hud, Option.map_map]
        cases mapGet items u with
        | none => simp
        | some it => simp [Function.comp, sadd_idem]
      · simp [hud]
    · by_cases hud : u = d
      · simp only [if_neg hds, List.mem_cons, if_pos (Or.inl hud)]
        rw [mapGet_mapModify, if_pos hud]
      · have : u ∉ (d :: ds) := by
          simp [hud, hds]
        simp only [if_neg hds, if_neg this]
        rw [mapGet_mapModify, if_neg hud]

theorem removeDependenciesIt_keys (items : List (String × CacheItem))
    (key : String) (deps : List String) :
    (removeDependenciesIt items key deps).map Prod.fst = items.map Prod.fst := by
  induction deps generalizing items with
  | nil => simp [removeDependenciesIt]
  | cons d ds ih =>
    have step : removeDependenciesIt items key (d :: ds) =
        removeDependenciesIt
          (mapModify items d
            (fun it => { it with dependents := sremove key it.dependents}))
          key ds := by
      simp [removeDependenciesIt]
    rw [step, ih, mapModify_keys]

theorem updateDependencies_keys (items : List (String × CacheItem))
    (key : String) (deps : List String) :
    (updateDependencies items key deps).map Prod.fst = items.map Prod.fst := by
  induction deps generalizing items with
  | nil => simp [updateDependencies]
  | cons d ds ih =>
    have step : updateDependencies items key (d :: ds) =
        updateDependencies
          (mapModify items d
            (fun it => { it with dependents := sadd key it.dependents}))
          key ds := by
      simp [updateDependencies]
    rw [step, ih, mapModify_keys]

theorem mapGet_mapDelete_ne {α : Type} (m : List (String × α)) (k u : String)
    (hne : u ≠ k) : mapGet (mapDelete m k) u = mapGet m u := by
  induction m with
  | nil => simp [mapDelete]
  | cons p rest ih =>
    by_cases hpk : p.1 = k
    · have hpu : ¬ p.1 = u := fun h => hne (by rw [← h, hpk])
      simp only [mapDelete, if_pos hpk, mapGet, if_neg hpu]
    · by_cases hpu : p.1 = u
      · simp only [mapDelete, if_neg hpk, mapGet, if_pos hpu]
      · simp only [mapDelete, if_neg hpk, mapGet, if_neg hpu, ih]

theorem removeTags_eq_foldl (tags : List (String × CacheTag)) (key : String)
    (ts : List String) :
    removeTags tags key ts = ts.foldl (removeTagStep key) tags := by
  induction ts generalizing tags with
  | nil => simp [removeTags]
  | cons t0 ts0 ih =>
    simp only [removeTags, List.foldl_cons] at *
    rw [← ih]
    simp [removeTags, removeTagStep]

theorem mapGet_removeTagStep (key : String) (m : List (String × CacheTag))
    (tag u : String) (hnd : (m.map Prod.fst).Nodup) :
    mapGet (removeTagStep key m tag) u =
      if u = tag then removeTagAt key (mapGet m tag) else mapGet m u := by
  cases hcase : mapGet m tag with
  | none =>
    simp only [removeTagStep, hcase, removeTagAt]
    by_cases hu : u = tag
    · simp [hu, hcase]
    · simp [hu]
  | some tagData =>
    by_cases hlen : (sremove key tagData.keys).length = 0
    · simp only [removeTagStep, hcase, removeTagAt, hlen, if_true]
      rw [mapGet_mapDelete m tag u hnd]
    · simp only [removeTagStep, hcase, removeTagAt, hlen, if_false]
      rw [mapGet_mapSet]

theorem removeTagStep_keys_nodup (key : String) (m : List (String × CacheTag))
    (tag : String) (hnd : (m.map Prod.fst).Nodup) :
    ((removeTagStep key m tag).map Prod.fst).Nodup := by
  cases hcase : mapGet m tag with
  | none => simpa [removeTagStep, hcase] using hnd
  | some tagData =>
    simp only [removeTagStep, hcase]
    by_cases hlen : (sremove key tagData.keys).length = 0
    · simpa [hlen] using mapDelete_keys_nodup m tag hnd
    · simpa [hlen] using mapSet_keys_nodup m tag _ hnd

theorem removeTagAt_idem (key : String) (o : Option CacheTag) :
    removeTagAt key (removeTagAt key o) = removeTagAt key o := by
  cases o with
  | none => simp [removeTagAt]
  | some tg =>
    simp only [removeTagAt]
    by_cases hlen : (sremove key tg.keys).length = 0
    · simp [hlen]
    · simp [hlen, removeTagAt, sremove_idem]

theorem mapGet_removeTags (tags : List (String × CacheTag)) (key : String)
    (ts : List String) (t : String) (hnd : (tags.map Prod.fst).Nodup) :
    mapGet (removeTags tags key ts) t =
      if t ∈ ts then removeTagAt key (mapGet tags t) else mapGet tags t := by
  rw [removeTags_eq_foldl]
  induction ts generalizing tags with
  | nil => simp
  | cons t0 ts0 ih =>
    simp only [List.foldl_cons]
    rw [ih _ (removeTagStep_keys_nodup key tags t0 hnd)]
    rw [mapGet_removeTagStep key tags t0 t hnd]
    by_cases ht0 : t = t0
    · subst ht0
      by_cases hts0 : t ∈ ts0 <;> simp [hts0, removeTagAt_idem]
    · by_cases hts0 : t ∈ ts0
      · simp [hts0, ht0]
      · have hmem : t ∉ (t0 :: ts0) := by simp [ht0, hts0]
        simp [hts0, ht0, hmem]

theorem removeTags_keys_nodup (tags : List (String × CacheTag)) (key : String)
    (ts : List String) (hnd : (tags.map Prod.fst).Nodup) :
    ((removeTags tags key ts).map Prod.fst).Nodup := by
  rw [removeTags_eq_foldl]
  induction ts generalizing tags with
  | nil => simpa
  | cons t0 ts0 ih =>
    simp only [List.foldl_cons]
    exact ih _ (removeTagStep_keys_nodup key tags t0 hnd)

theorem updateTags_eq_foldl (tags : List (String × CacheTag)) (key : String)
    (ts : List String) (now : Nat) :
    updateTags tags key ts now = ts.foldl (updateTagStep key now) tags := by
  induction ts generalizing tags with
  | nil => simp [updateTags]
  | cons t0 ts0 ih =>
    simp only [updateTags, List.foldl_cons] at *
    rw [← ih]
    simp [updateTags, updateTagStep]

theorem mapGet_updateTagStep (key : String) (now : Nat)
    (m : List (String × CacheTag)) (tag u : String) :
    mapGet (updateTagStep key now m tag) u =
      if u = tag then updateTagAt key tag now (mapGet m tag) else mapGet m u := by
  cases hcase : mapGet m tag with
  | some tagData =>
    by_cases hu : u = tag
    · subst hu
      simp [updateTagStep, hcase, updateTagAt, mapGet_mapModify]
    · simp [updateTagStep, hcase, updateTagAt, mapGet_mapModify, hu]
  | none =>
    by_cases hu : u = tag
    · subst hu
      simp [updateTagStep, hcase, updateTagAt, mapGet_mapModify, mapGet_mapSet,
        sadd]
    · simp [updateTagStep, hcase, updateTagAt, mapGet_mapModify, mapGet_mapSet,
        hu]

theorem updateTagStep_keys_nodup (key : String) (now : Nat)
    (m : List (String × CacheTag)) (tag : String)
    (hnd : (m.map Prod.fst).Nodup) :
    ((updateTagStep key now m tag).map Prod.fst).Nodup := by
  simp only [updateTagStep]
  by_cases hcase : (mapGet m tag).isSome
  · simp only [hcase, if_true]
    rw [mapModify_keys]
    exact hnd
  · simp only [hcase, if_false]
    rw [mapModify_keys]
    exact mapSet_keys_nodup m tag _ hnd

theorem updateTagAt_idem (key tag : String) (now : Nat) (o : Option CacheTag) :
    updateTagAt key tag now (updateTagAt key tag now o) =
      updateTagAt key tag now o := by
  cases o with
  | none => simp [updateTagAt, sadd_idem]
  | some tg => simp [updateTagAt, sadd_idem]

theorem mapGet_updateTags (tags : List (String × CacheTag)) (key : String)
    (ts : List String) (now : Nat) (t : String) :
    mapGet (updateTags tags key ts now) t =
      if t ∈ ts then updateTagAt key t now (mapGet tags t) else mapGet tags t := by
  rw [updateTags_eq_foldl]
  induction ts generalizing tags with
  | nil => simp
  | cons t0 ts0 ih =>
    simp only [List.foldl_cons]
    rw [ih]
    rw [mapGet_updateTagStep key now tags t0 t]
    by_cases ht0 : t = t0
    · subst ht0
      by_cases hts0 : t ∈ ts0 <;> simp [hts0, updateTagAt_idem]
    · by_cases hts0 : t ∈ ts0
      · simp [hts0, ht0]
      · have hmem : t ∉ (t0 :: ts0) := by simp [ht0, hts0]
        simp [hts0, ht0, hmem]

theorem updateTags_keys_nodup (tags : List (String × CacheTag)) (key : String)
    (ts : List String) (now : Nat) (hnd : (tags.map Prod.fst).Nodup) :
    ((updateTags tags key ts now).map Prod.fst).Nodup := by
  rw [updateTags_eq_foldl]
  induction ts generalizing tags with
  | nil => simpa
  | cons t0 ts0 ih =>
    simp only [List.foldl_cons]
    exact ih _ (updateTagStep_keys_nodup key now tags t0 hnd)

theorem edgeB_iff (s : St) (u v : String) : edgeB s u v = true ↔ edge s u v := by
  cases hcase : mapGet s.items u with
  | none =>
    simp only [edgeB, hcase, edge]
    constructor
    · intro h
      exact Bool.noConfusion h
    · rintro ⟨it, hit, _⟩
      exact Option.noConfusion hit
  | some it =>
    simp only [edgeB, hcase, edge, decide_eq_true_eq]
    constructor
    · intro h
      exact ⟨it, rfl, h⟩
    · rintro ⟨it', hit', hm⟩
      obtain rfl := Option.some_inj.mp hit'
      exact hm

theorem Reaches.push {s : St} {u v w : String}
    (h1 : edge s u v) (h2 : Reaches s v w) : Reaches s u w := by
  induction h2 with
  | single h => exact Reaches.tail (Reaches.single h1) h
  | tail _ h ih => exact Reaches.tail ih h

theorem Reaches.append {s : St} {u v w : String}
    (h1 : Reaches s u v) (h2 : Reaches s v w) : Reaches s u w := by
  induction h2 with
  | single h => exact Reaches.tail h1 h
  | tail _ h ih => exact Reaches.tail ih h

theorem StSub.refl (s : St) : StSub s s :=
  ⟨fun _ it' h => ⟨it', h, fun _ ha => ha, rfl, rfl⟩,
   fun _ tg' h => ⟨tg', h, fun _ ha => ha⟩⟩

theorem StSub.trans {s3 s2 s1 : St} (h32 : StSub s3 s2) (h21 : StSub s2 s1) :
    StSub s3 s1 := by
  constructor
  · intro k it3 h3
    rcases h32.items_le k it3 h3 with ⟨it2, h2, hd32, ho32, ht32⟩
    rcases h21.items_le k it2 h2 with ⟨it1, h1, hd21, ho21, ht21⟩
    exact ⟨it1, h1, fun a ha => hd21 (hd32 ha), ho32.trans ho21, ht32.trans ht21⟩
  · intro t tg3 h3
    rcases h32.tags_le t tg3 h3 with ⟨tg2, h2, hk32⟩
    rcases h21.tags_le t tg2 h2 with ⟨tg1, h1, hk21⟩
    exact ⟨tg1, h1, fun a ha => hk21 (hk32 ha)⟩

theorem StSub.res_none {s' s : St} (h : StSub s' s) {x : String}
    (hx : mapGet s.items x = none) : mapGet s'.items x = none := by
  cases hcase : mapGet s'.items x with
  | none => rfl
  | some it' =>
    rcases h.items_le x it' hcase with ⟨it, hit, _⟩
    rw [hx] at hit
    exact absurd hit (by simp)

theorem StSub.edge_mono {s' s : St} (h : StSub s' s) {u v : String}
    (he : edge s' u v) : edge s u v := by
  rcases he with ⟨it', hit', hm⟩
  rcases h.items_le u it' hit' with ⟨it, hit, hd, _, _⟩
  exact ⟨it, hit, hd hm⟩

theorem StSub.reaches_mono {s' s : St} (h : StSub s' s) {u v : String}
    (hr : Reaches s' u v) : Reaches s u v := by
  induction hr with
  | single he => exact Reaches.single (h.edge_mono he)
  | tail _ he ih => exact Reaches.tail ih (h.edge_mono he)

/-- Two states with identical entry stores and tag indices (only stats or
groups differ) are mutually StSub. -/
theorem StSub.of_eq {s' s : St} (hi : s'.items = s.items) (ht : s'.tags = s.tags) :
    StSub s' s := by
  constructor
  · intro k it' h
    exact ⟨it', by rw [← hi]; exact h, fun _ ha => ha, rfl, rfl⟩
  · intro t tg' h
    exact ⟨tg', by rw [← ht]; exact h, fun _ ha => ha⟩

/-! ## Atomic-step facts for the delete cascade -/

theorem rmDepsSt_items_get (s : St) (key : String) (deps : List String)
    (u : String) :
    mapGet (removeDependenciesSt s key deps).items u =
      if u ∈ deps then
        (mapGet s.items u).map
          (fun it => { it with dependents := sremove key it.dependents })
      else mapGet s.items u :=
  mapGet_removeDependenciesIt s.items key deps u

theorem rmDepsSt_tags (s : St) (key : String) (deps : List String) :
    (removeDependenciesSt s key deps).tags = s.tags := rfl

theorem rmDepsSt_sub (s : St) (key : String) (deps : List String) :
    StSub (removeDependenciesSt s key deps) s := by
  constructor
  · intro k it' h
    rw [rmDepsSt_items_get] at h
    by_cases hk : k ∈ deps
    · rw [if_pos hk] at h
      cases hcase : mapGet s.items k with
      | none => rw [hcase] at h; exact Option.noConfusion h
      | some it =>
        rw [hcase] at h
        rw [Option.map_some'] at h
        obtain rfl := Option.some_inj.mp h
        exact ⟨it, rfl, fun a ha => sremove_subset key it.dependents ha, rfl, rfl⟩
    · rw [if_neg hk] at h
      exact ⟨it', h, fun _ ha => ha, rfl, rfl⟩
  · intro t tg' h
    rw [rmDepsSt_tags] at h
    exact ⟨tg', h, fun _ ha => ha⟩

theorem rmDepsSt_edge_of_ne (s : St) (key : String) (deps : List String)
    {u v : String} (hv : v ≠ key) (he : edge s u v) :
    edge (removeDependenciesSt s key deps) u v := by
  rcases he with ⟨it, hit, hm⟩
  by_cases hu : u ∈ deps
  · refine ⟨{ it with dependents := sremove key it.dependents }, ?_, ?_⟩
    · rw [rmDepsSt_items_get, if_pos hu, hit]
      rfl
    · simp only [sremove, List.mem_filter, hm, true_and, decide_eq_true_eq]
      exact hv
  · exact ⟨it, by rw [rmDepsSt_items_get, if_neg hu]; exact hit, hm⟩

theorem rmDepsSt_unlinks (s : St) (key : String) (deps : List String)
    {dep : String} (hdep : dep ∈ deps) {itd : CacheItem}
    (h : mapGet (removeDependenciesSt s key deps).items dep = some itd) :
    key ∉ itd.dependents := by
  rw [rmDepsSt_items_get, if_pos hdep] at h
  cases hcase : mapGet s.items dep with
  | none => rw [hcase] at h; exact Option.noConfusion h
  | some it =>
    rw [hcase] at h
    rw [Option.map_some'] at h
    obtain rfl := Option.some_inj.mp h
    exact not_mem_sremove key it.dependents

theorem rmDepsSt_items_keys (s : St) (key : String) (deps : List String) :
    (removeDependenciesSt s key deps).items.map Prod.fst = s.items.map Prod.fst :=
  removeDependenciesIt_keys s.items key deps

theorem rmDepsSt_res_iff (s : St) (key : String) (deps : List String)
    (u : String) :
    (mapGet (removeDependenciesSt s key deps).items u).isSome ↔
      (mapGet s.items u).isSome := by
  rw [rmDepsSt_items_get]
  by_cases hu : u ∈ deps
  · rw [if_pos hu]
    cases mapGet s.items u <;> simp
  · rw [if_neg hu]

theorem rmTagsSt_items (s : St) (key : String) (ts : List String) :
    (removeTagsSt s key ts).items = s.items := rfl

theorem rmTagsSt_sub (s : St) (key : String) (ts : List String)
    (hnd : (s.tags.map Prod.fst).Nodup) :
    StSub (removeTagsSt s key ts) s := by
  constructor
  · intro k it' h
    rw [rmTagsSt_items] at h
    exact ⟨it', h, fun _ ha => ha, rfl, rfl⟩
  · intro t tg' h
    have := mapGet_removeTags s.tags key ts t hnd
    simp only [removeTagsSt] at h
    rw [this] at h
    by_cases ht : t ∈ ts
    · rw [if_pos ht] at h
      cases hcase : mapGet s.tags t with
      | none => rw [hcase] at h; exact absurd h (by simp [removeTagAt])
      | some tg =>
        rw [hcase] at h
        simp only [removeTagAt] at h
        by_cases hlen : (sremove key tg.keys).length = 0
        · rw [if_pos hlen] at h
          exact absurd h (by simp)
        · rw [if_neg hlen] at h
          refine ⟨tg, rfl, ?_⟩
          rw [← Option.some_inj.mp h]
          exact fun a ha => sremove_subset key tg.keys ha
    · rw [if_neg ht] at h
      exact ⟨tg', h, fun _ ha => ha⟩

theorem rmTagsSt_unlinks (s : St) (key : String) (ts : List String)
    (hnd : (s.tags.map Prod.fst).Nodup) {t : String} (ht : t ∈ ts)
    {tg : CacheTag} (h : mapGet (removeTagsSt s key ts).tags t = some tg) :
    key ∉ tg.keys := by
  have := mapGet_removeTags s.tags key ts t hnd
  simp only [removeTagsSt] at h
  rw [this, if_pos ht] at h
  cases hcase : mapGet s.tags t with
  | none => rw [hcase] at h; exact absurd h (by simp [removeTagAt])
  | some tg0 =>
    rw [hcase] at h
    simp only [removeTagAt] at h
    by_cases hlen : (sremove key tg0.keys).length = 0
    · rw [if_pos hlen] at h
      exact absurd h (by simp)
    · rw [if_neg hlen] at h
      rw [← Option.some_inj.mp h]
      exact not_mem_sremove key tg0.keys

theorem rmTagsSt_tags_nodup (s : St) (key : String) (ts : List String)
    (hnd : (s.tags.map Prod.fst).Nodup) :
    ((removeTagsSt s key ts).tags.map Prod.fst).Nodup :=
  removeTags_keys_nodup s.tags key ts hnd

/-! ## The contract of the cascading delete -/

theorem edge_items_eq {s2 s1 : St} (h : s2.items = s1.items) (u v : String) :
    edge s2 u v ↔ edge s1 u v := by
  simp only [edge, h]

theorem deleteList_aux (fuel : Nat)
    (H : ∀ s key s', (s.items.map Prod.fst).Nodup → (s.tags.map Prod.fst).Nodup →
      deleteFuel fuel s key = some s' → DelPost s key s') :
    ∀ ks s s', (s.items.map Prod.fst).Nodup → (s.tags.map Prod.fst).Nodup →
      deleteListFuel fuel s ks = some s' → DelListPost s ks s' := by
  intro ks
  induction ks with
  | nil =>
    intro s s' hndI hndT hrun
    rw [deleteListFuel] at hrun
    obtain rfl := Option.some_inj.mp hrun
    refine ⟨hndI, hndT, StSub.refl s, ?_, fun u v he => Or.inl he, ?_⟩
    · intro k hk
      exact absurd hk (List.not_mem_nil k)
    · intro x itx hx hx'
      rw [hx] at hx'
      exact Option.noConfusion hx'
  | cons k ks ih =>
    intro s s' hndI hndT hrun
    rw [deleteListFuel] at hrun
    cases hdel : deleteFuel fuel s k with
    | none => rw [hdel] at hrun; exact Option.noConfusion hrun
    | some s1 =>
      rw [hdel] at hrun
      obtain ⟨nd1I, nd1T, sub1, dead1, edges1, rem1⟩ := H s k s1 hndI hndT hdel
      obtain ⟨nd2I, nd2T, sub2, deadks, edges2, rem2⟩ := ih s1 s' nd1I nd1T hrun
      refine ⟨nd2I, nd2T, sub2.trans sub1, ?_, ?_, ?_⟩
      · intro k0 hk0
        rcases List.mem_cons.mp hk0 with rfl | hk0'
        · exact sub2.res_none dead1
        · exact deadks k0 hk0'
      · intro u v he
        rcases edges1 u v he with he1 | hv1
        · rcases edges2 u v he1 with he2 | hv2
          · exact Or.inl he2
          · exact Or.inr hv2
        · exact Or.inr (sub2.res_none hv1)
      · intro x itx hx hx'
        cases hcase1 : mapGet s1.items x with
        | none =>
          obtain ⟨hrem, hdeps, htags⟩ := rem1 x itx hx hcase1
          refine ⟨⟨k, List.mem_cons_self k ks, hrem⟩, ?_, ?_⟩
          · intro dep hdep itd hitd
            rcases sub2.items_le dep itd hitd with ⟨itd1, hitd1, hdsub, _, _⟩
            exact fun hmem => (hdeps dep hdep itd1 hitd1) (hdsub hmem)
          · intro t ht tg htg
            rcases sub2.tags_le t tg htg with ⟨tg1, htg1, hksub⟩
            exact fun hmem => (htags t ht tg1 htg1) (hksub hmem)
        | some itx1 =>
          obtain ⟨hrem, hdeps, htags⟩ := rem2 x itx1 hcase1 hx'
          rcases sub1.items_le x itx1 hcase1 with ⟨itx0, hitx0, _, hdep_eq, htag_eq⟩
          have hx0 : itx0 = itx := by
            rw [hx] at hitx0
            exact (Option.some_inj.mp hitx0).symm
          subst hx0
          refine ⟨?_, ?_, ?_⟩
          · rcases hrem with ⟨k', hk', hcase'⟩
            refine ⟨k', List.mem_cons_of_mem _ hk', ?_⟩
            rcases hcase' with rfl | hr
            · exact Or.inl rfl
            · exact Or.inr (sub1.reaches_mono hr)
          · intro dep hdep itd hitd
            exact hdeps dep (by rw [hdep_eq]; exact hdep) itd hitd
          · intro t ht tg htg
            exact htags t (by rw [htag_eq]; exact ht) tg htg

theorem delete_post : ∀ (fuel : Nat) (s : St) (key : String) (s' : St),
    (s.items.map Prod.fst).Nodup → (s.tags.map Prod.fst).Nodup →
    deleteFuel fuel s key = some s' → DelPost s key s' := by
  intro fuel
  induction fuel with
  | zero =>
    intro s key s' _ _ h
    rw [deleteFuel] at h
    exact Option.noConfusion h
  | succ f ihf =>
    intro s key s' hndI hndT hrun
    rw [deleteFuel] at hrun
    cases hitem : mapGet s.items key with
    | none =>
      rw [hitem] at hrun
      obtain rfl := Option.some_inj.mp hrun
      refine ⟨hndI, hndT, StSub.refl s, hitem, fun u v he => Or.inl he, ?_⟩
      intro x itx hx hx'
      rw [hx] at hx'
      exact Option.noConfusion hx'
    | some item =>
      rw [hitem] at hrun
      simp only at hrun
      -- name the intermediate states
      generalize hs1 : removeDependenciesSt s key item.dependsOn = s1 at hrun
      generalize hs2 : removeTagsSt s1 key item.tags = s2 at hrun
      rw [listDelete_eq f] at hrun
      cases hlist : deleteListFuel f s2
          (match mapGet s2.items key with
            | some it => it.dependents
            | none => []) with
      | none => rw [hlist] at hrun; exact Option.noConfusion hrun
      | some s3 =>
        rw [hlist] at hrun
        obtain rfl := Option.some_inj.mp hrun
        -- facts about s1
        have nd1I : (s1.items.map Prod.fst).Nodup := by
          rw [← hs1, rmDepsSt_items_keys]; exact hndI
        have nd1T : (s1.tags.map Prod.fst).Nodup := by
          rw [← hs1, rmDepsSt_tags]; exact hndT
        have sub10 : StSub s1 s := hs1 ▸ rmDepsSt_sub s key item.dependsOn
        -- facts about s2
        have h21items : s2.items = s1.items := by rw [← hs2]; rfl
        have nd2I : (s2.items.map Prod.fst).Nodup := by rw [h21items]; exact nd1I
        have nd2T : (s2.tags.map Prod.fst).Nodup := by
          rw [← hs2]; exact rmTagsSt_tags_nodup s1 key item.tags nd1T
        have sub21 : StSub s2 s1 := hs2 ▸ rmTagsSt_sub s1 key item.tags nd1T
        have sub20 : StSub s2 s := sub21.trans sub10
        -- the key's entry inside s2 and the snapshot
        have hkey1 : mapGet s1.items key =
            some (if key ∈ item.dependsOn then
              { item with dependents := sremove key item.dependents } else item) := by
          rw [← hs1, rmDepsSt_items_get]
          by_cases hkd : key ∈ item.dependsOn
          · rw [if_pos hkd, if_pos hkd, hitem, Option.map_some']
          · rw [if_neg hkd, if_neg hkd, hitem]
        have hkey2 : mapGet s2.items key =
            some (if key ∈ item.dependsOn then
              { item with dependents := sremove key item.dependents } else item) := by
          rw [h21items]; exact hkey1
        have hsnapsub :
            (match mapGet s2.items key with
              | some it => it.dependents
              | none => []) ⊆ item.dependents := by
          rw [hkey2]
          by_cases hkd : key ∈ item.dependsOn
          · rw [if_pos hkd]
            exact fun a ha => sremove_subset key item.dependents ha
          · rw [if_neg hkd]
            exact fun a ha => ha
        -- the list run
        obtain ⟨nd3I, nd3T, sub32, deadsnap, edges32, rem32⟩ :=
          deleteList_aux f ihf _ s2 s3 nd2I nd2T hlist
        have sub30 : StSub s3 s := sub32.trans sub20
        -- the final state
        have hfin_items : ∀ u, mapGet
            (updateStats { s3 with items := mapDelete s3.items key }).items u =
            if u = key then none else mapGet s3.items u := by
          intro u
          exact mapGet_mapDelete s3.items key u nd3I
        have hfin_tags :
            (updateStats { s3 with items := mapDelete s3.items key }).tags =
              s3.tags := rfl
        have subf3 : StSub (updateStats { s3 with items := mapDelete s3.items key }) s3 := by
          constructor
          · intro k it' h
            rw [hfin_items] at h
            by_cases hk : k = key
            · rw [if_pos hk] at h; exact Option.noConfusion h
            · rw [if_neg hk] at h
              exact ⟨it', h, fun _ ha => ha, rfl, rfl⟩
          · intro t tg' h
            rw [hfin_tags] at h
            exact ⟨tg', h, fun _ ha => ha⟩
        refine ⟨?_, ?_, subf3.trans sub30, ?_, ?_, ?_⟩
        · exact mapDelete_keys_nodup s3.items key nd3I
        · exact nd3T
        · rw [hfin_items, if_pos rfl]
        · -- edge preservation
          intro u v he
          by_cases hv : v = key
          · refine Or.inr ?_
            rw [hfin_items, if_pos hv]
          · have he1 : edge s1 u v := by
              rw [← hs1]
              exact rmDepsSt_edge_of_ne s key item.dependsOn hv he
            have he2 : edge s2 u v := (edge_items_eq h21items u v).mpr he1
            rcases edges32 u v he2 with he3 | hv3
            · rcases he3 with ⟨it3, hit3, hv3mem⟩
              by_cases hu : u = key
              · -- u is the key: v sits in the snapshot, hence is dead in s3
                refine Or.inr ?_
                rw [hfin_items, if_neg hv]
                rcases sub32.items_le u it3 hit3 with ⟨it2, hit2, hdsub, _, _⟩
                have : v ∈ (match mapGet s2.items key with
                  | some it => it.dependents
                  | none => []) := by
                  rw [hu] at hit2
                  rw [hit2]
                  exact hdsub hv3mem
                exact deadsnap v this
              · refine Or.inl ?_
                refine ⟨it3, ?_, hv3mem⟩
                rw [hfin_items, if_neg hu]
                exact hit3
            · refine Or.inr ?_
              rw [hfin_items, if_neg hv]
              exact hv3
        · -- removed entries: provenance and unlinking
          intro x itx hx hx'
          have hitx : itx = item ∨ x ≠ key := by
            by_cases hxk : x = key
            · left
              rw [hxk, hitem] at hx
              exact (Option.some_inj.mp hx).symm
            · right; exact hxk
          by_cases hxk : x = key
          · -- x is the key itself
            have hitem_eq : itx = item := by
              rw [hxk, hitem] at hx
              exact (Option.some_inj.mp hx).symm
            subst hitem_eq
            refine ⟨Or.inl hxk, ?_, ?_⟩
            · intro dep hdep itd hitd
              rcases (subf3.trans sub32).items_le dep itd hitd with
                ⟨itd1, hitd1, hdsub, _, _⟩
              rw [h21items] at hitd1
              have hkey_not : key ∉ itd1.dependents := by
                rw [← hs1] at hitd1
                exact rmDepsSt_unlinks s key itx.dependsOn hdep hitd1
              rw [hxk]
              exact fun hmem => hkey_not (hdsub hmem)
            · intro t ht tg htg
              rw [hfin_tags] at htg
              rcases sub32.tags_le t tg htg with ⟨tg2, htg2, hksub⟩
              have hkey_not : key ∉ tg2.keys := by
                rw [← hs2] at htg2
                exact rmTagsSt_unlinks s1 key itx.tags nd1T ht htg2
              rw [hxk]
              exact fun hmem => hkey_not (hksub hmem)
          · -- x survived to s2 and was removed by the cascade
            have hx'3 : mapGet s3.items x = none := by
              have := hfin_items x
              rw [if_neg hxk] at this
              rw [← this]
              exact hx'
            have hx2 : mapGet s2.items x =
                some (if x ∈ item.dependsOn then
                  { itx with dependents := sremove key itx.dependents } else itx) := by
              rw [h21items, ← hs1, rmDepsSt_items_get]
              by_cases hxd : x ∈ item.dependsOn
              · rw [if_pos hxd, if_pos hxd, hx, Option.map_some']
              · rw [if_neg hxd, if_neg hxd, hx]
            obtain ⟨⟨k', hk'mem, hcase'⟩, hdeps, htags⟩ := rem32 x _ hx2 hx'3
            have hreach_k' : Reaches s key k' := by
              refine Reaches.single ⟨item, hitem, ?_⟩
              exact hsnapsub hk'mem
            refine ⟨?_, ?_, ?_⟩
            · refine Or.inr ?_
              rcases hcase' with rfl | hr
              · exact hreach_k'
              · exact hreach_k'.append (sub20.reaches_mono hr)
            · intro dep hdep itd hitd
              have hdep2 : dep ∈ (if x ∈ item.dependsOn then
                  { itx with dependents := sremove key itx.dependents } else itx).dependsOn := by
                by_cases hxd : x ∈ item.dependsOn
                · rw [if_pos hxd]; exact hdep
                · rw [if_neg hxd]; exact hdep
              rcases subf3.items_le dep itd hitd with ⟨itd3, hitd3, hdsub, _, _⟩
              exact fun hmem => (hdeps dep hdep2 itd3 hitd3) (hdsub hmem)
            · intro t ht tg htg
              have ht2 : t ∈ (if x ∈ item.dependsOn then
                  { itx with dependents := sremove key itx.dependents } else itx).tags := by
                by_cases hxd : x ∈ item.dependsOn
                · rw [if_pos hxd]; exact ht
                · rw [if_neg hxd]; exact ht
              rw [hfin_tags] at htg
              exact htags t ht2 tg htg

/-! ## Analysis of the eviction scans and the post-set eviction loop -/

theorem argMinScan_spec (f : CacheItem → Nat) :
    ∀ (l : List (String × CacheItem)) (k0 : Option String) (b0 : Nat),
      (argMinScan f l (k0, b0) = (k0, b0) ∧ ∀ kv ∈ l, b0 ≤ f kv.2) ∨
      (∃ l1 v it l2, l = l1 ++ (v, it) :: l2 ∧
        argMinScan f l (k0, b0) = (some v, f it) ∧ f it < b0 ∧
        (∀ kv ∈ l1, f it < f kv.2) ∧ (∀ kv ∈ l, f it ≤ f kv.2)) := by
  intro l
  induction l with
  | nil =>
    intro k0 b0
    left
    exact ⟨rfl, by simp⟩
  | cons kv rest ih =>
    intro k0 b0
    by_cases hlt : f kv.2 < b0
    · have hstep : argMinScan f (kv :: rest) (k0, b0) =
          argMinScan f rest (some kv.1, f kv.2) := by
        simp [argMinScan, hlt]
      rcases ih (some kv.1) (f kv.2) with ⟨heq, hall⟩ | ⟨l1, v, it, l2, hl, heq, hlt', hbef, hmin⟩
      · right
        refine ⟨[], kv.1, kv.2, rest, by simp, ?_, hlt, by simp, ?_⟩
        · rw [hstep, heq]
        · intro kv' hkv'
          rcases List.mem_cons.mp hkv' with rfl | h
          · exact Nat.le_refl _
          · exact hall kv' h
      · right
        refine ⟨kv :: l1, v, it, l2, by rw [hl]; rfl, ?_, hlt'.trans hlt, ?_, ?_⟩
        · rw [hstep, heq]
        · intro kv' hkv'
          rcases List.mem_cons.mp hkv' with rfl | h
          · exact hlt'
          · exact hbef kv' h
        · intro kv' hkv'
          rcases List.mem_cons.mp hkv' with rfl | h
          · exact Nat.le_of_lt hlt'
          · exact hmin kv' (hl ▸ h)
    · have hstep : argMinScan f (kv :: rest) (k0, b0) =
          argMinScan f rest (k0, b0) := by
        simp [argMinScan, hlt]
      rcases ih k0 b0 with ⟨heq, hall⟩ | ⟨l1, v, it, l2, hl, heq, hlt', hbef, hmin⟩
      · left
        refine ⟨by rw [hstep, heq], ?_⟩
        intro kv' hkv'
        rcases List.mem_cons.mp hkv' with rfl | h
        · exact Nat.le_of_not_lt hlt
        · exact hall kv' h
      · right
        refine ⟨kv :: l1, v, it, l2, by rw [hl]; rfl, ?_, hlt', ?_, ?_⟩
        · rw [hstep, heq]
        · intro kv' hkv'
          rcases List.mem_cons.mp hkv' with rfl | h
          · exact Nat.lt_of_lt_of_le hlt' (Nat.le_of_not_lt hlt)
          · exact hbef kv' h
        · intro kv' hkv'
          rcases List.mem_cons.mp hkv' with rfl | h
          · exact Nat.le_of_lt (Nat.lt_of_lt_of_le hlt' (Nat.le_of_not_lt hlt))
          · exact hmin kv' (hl ▸ h)

theorem lfuScan_eq_argMinScan :
    ∀ (l : List (String × CacheItem)) (k0 : String) (c0 : Nat),
      (lfuScan l (some k0, some c0)).1 =
        (argMinScan (fun it => it.accessCount) l (some k0, c0)).1 := by
  intro l
  induction l with
  | nil => intro k0 c0; rfl
  | cons kv rest ih =>
    intro k0 c0
    by_cases hlt : kv.2.accessCount < c0
    · have h1 : lfuScan (kv :: rest) (some k0, some c0) =
          lfuScan rest (some kv.1, some kv.2.accessCount) := by
        simp [lfuScan, hlt]
      have h2 : argMinScan (fun it => it.accessCount) (kv :: rest) (some k0, c0) =
          argMinScan (fun it => it.accessCount) rest (some kv.1, kv.2.accessCount) := by
        simp [argMinScan, hlt]
      rw [h1, h2, ih]
    · have h1 : lfuScan (kv :: rest) (some k0, some c0) =
          lfuScan rest (some k0, some c0) := by
        simp [lfuScan, hlt]
      have h2 : argMinScan (fun it => it.accessCount) (kv :: rest) (some k0, c0) =
          argMinScan (fun it => it.accessCount) rest (some k0, c0) := by
        simp [argMinScan, hlt]
      rw [h1, h2, ih]

theorem lfuVictim_cons (kv : String × CacheItem)
    (rest : List (String × CacheItem)) :
    lfuVictim (kv :: rest) =
      (argMinScan (fun it => it.accessCount) rest
        (some kv.1, kv.2.accessCount)).1 := by
  have h1 : lfuVictim (kv :: rest) =
      (lfuScan rest (some kv.1, some kv.2.accessCount)).1 := by
    simp [lfuVictim, lfuScan]
  rw [h1, lfuScan_eq_argMinScan]

/-- evictLFU always selects the first entry in iteration order attaining the
minimum accessCount (ties broken by iteration order). -/
theorem lfuVictim_spec (items : List (String × CacheItem)) (hne : items ≠ []) :
    ∃ l1 v it l2, items = l1 ++ (v, it) :: l2 ∧ lfuVictim items = some v ∧
      (∀ kv ∈ l1, it.accessCount < kv.2.accessCount) ∧
      (∀ kv ∈ items, it.accessCount ≤ kv.2.accessCount) := by
  cases items with
  | nil => exact absurd rfl hne
  | cons kv rest =>
    rw [lfuVictim_cons]
    rcases argMinScan_spec (fun it => it.accessCount) rest (some kv.1)
        kv.2.accessCount with ⟨heq, hall⟩ | ⟨l1, v, it, l2, hl, heq, hlt, hbef, hmin⟩
    · refine ⟨[], kv.1, kv.2, rest, by simp, by rw [heq], by simp, ?_⟩
      intro kv' hkv'
      rcases List.mem_cons.mp hkv' with rfl | h
      · exact Nat.le_refl _
      · exact hall kv' h
    · refine ⟨kv :: l1, v, it, l2, by rw [hl]; rfl, by rw [heq], ?_, ?_⟩
      · intro kv' hkv'
        rcases List.mem_cons.mp hkv' with rfl | h
        · exact hlt
        · exact hbef kv' h
      · intro kv' hkv'
        rcases List.mem_cons.mp hkv' with rfl | h
        · exact Nat.le_of_lt hlt
        · exact hmin kv' (hl ▸ h)

/-- evictLRU selects the first entry attaining the minimum lastAccessed,
provided some entry is strictly older than the scan instant; if no entry is,
no victim is selected at all. -/
theorem lruVictim_spec (items : List (String × CacheItem)) (now : Nat) :
    (lruVictim items now = none ∧ ∀ kv ∈ items, now ≤ kv.2.lastAccessed) ∨
    (∃ l1 v it l2, items = l1 ++ (v, it) :: l2 ∧ lruVictim items now = some v ∧
      it.lastAccessed < now ∧
      (∀ kv ∈ l1, it.lastAccessed < kv.2.lastAccessed) ∧
      (∀ kv ∈ items, it.lastAccessed ≤ kv.2.lastAccessed)) := by
  rcases argMinScan_spec (fun it => it.lastAccessed) items none now with
    ⟨heq, hall⟩ | ⟨l1, v, it, l2, hl, heq, hlt, hbef, hmin⟩
  · left
    exact ⟨by simp [lruVictim, heq], hall⟩
  · right
    exact ⟨l1, v, it, l2, hl, by simp [lruVictim, heq], hlt, hbef, hmin⟩

theorem mapDelete_sublist {α : Type} (m : List (String × α)) (k : String) :
    (mapDelete m k).Sublist m := by
  induction m with
  | nil => simp [mapDelete]
  | cons p rest ih =>
    by_cases hpk : p.1 = k
    · simpa [mapDelete, hpk] using List.Sublist.cons p (List.Sublist.refl rest)
    · simpa [mapDelete, hpk] using ih

theorem evictLFU_items (s : St) {v : String} (hv : lfuVictim s.items = some v) :
    (evictLFU s).items = mapDelete s.items v := by
  simp only [evictLFU, hv]
  rfl

theorem evictLRU_items (s : St) (now : Nat) {v : String}
    (hv : lruVictim s.items now = some v) :
    (evictLRU s now).items = mapDelete s.items v := by
  simp only [evictLRU, hv]
  rfl

theorem evictCond_false_of_le {cfg : Config} {s : St}
    (h : s.items.length ≤ cfg.maxItems) : evictCond cfg s = false := by
  simp only [evictCond]
  have : ¬ cfg.maxItems < s.items.length := Nat.not_lt.mpr h
  simp [this]

theorem evictCond_true_elim {cfg : Config} {s : St}
    (h : evictCond cfg s = true) :
    cfg.maxItems ≠ 0 ∧ cfg.maxItems < s.items.length := by
  simpa [evictCond] using h

/-- Under the lfu policy the post-set eviction loop terminates within
items.length iterations — for every clock schedule (the lfu scan never reads
the clock) — and enforces the capacity bound. -/
theorem evictLoop_lfu (cfg : Config)
    (hpol : cfg.evictionPolicy = .lfu) (hmax : cfg.maxItems ≠ 0) :
    ∀ (ticks : List Nat) (s : St), (s.items.map Prod.fst).Nodup →
      s.items.length ≤ ticks.length + cfg.maxItems →
      ∃ s', evictLoop cfg ticks s = some s' ∧
        s'.items.length ≤ cfg.maxItems := by
  intro ticks
  induction ticks with
  | nil =>
    intro s hnd hlen
    have hcond : evictCond cfg s = false :=
      evictCond_false_of_le (by simpa using hlen)
    exact ⟨s, by simp [evictLoop, hcond], by simpa using hlen⟩
  | cons t ts ih =>
    intro s hnd hlen
    by_cases hcond : evictCond cfg s = true
    · obtain ⟨hmax, hgt⟩ := evictCond_true_elim hcond
      have hne : s.items ≠ [] := by
        intro h
        rw [h] at hgt
        simp at hgt
      obtain ⟨l1, v, it, l2, hl, hvict, _, _⟩ := lfuVictim_spec s.items hne
      have hvmem : v ∈ s.items.map Prod.fst := by
        refine List.mem_map.mpr ⟨(v, it), ?_, rfl⟩
        rw [hl]
        exact List.mem_append.mpr (Or.inr (List.mem_cons_self _ _))
      have hstep : evictStep cfg t s = evictLFU s := by
        simp [evictStep, hpol]
      have hitems : (evictLFU s).items = mapDelete s.items v :=
        evictLFU_items s hvict
      have hlen' : (evictLFU s).items.length + 1 = s.items.length := by
        rw [hitems]
        exact mapDelete_length s.items v hvmem
      have hnd' : ((evictLFU s).items.map Prod.fst).Nodup := by
        rw [hitems]
        exact mapDelete_keys_nodup s.items v hnd
      have hlen2 : (evictLFU s).items.length ≤ ts.length + cfg.maxItems := by
        simp only [List.length_cons] at hlen
        omega
      obtain ⟨s', hs', hbound⟩ := ih (evictLFU s) hnd' hlen2
      refine ⟨s', ?_, hbound⟩
      rw [show evictLoop cfg (t :: ts) s =
        evictLoop cfg ts (evictStep cfg t s) by simp [evictLoop, hcond]]
      rw [hstep]
      exact hs'
    · have hcondf : evictCond cfg s = false := Bool.eq_false_iff.mpr hcond
      refine ⟨s, by simp [evictLoop, hcondf], ?_⟩
      simp only [evictCond, Bool.and_eq_false_iff] at hcondf
      rcases hcondf with h | h
      · simp [hmax] at h
      · simp only [decide_eq_false_iff_not] at h
        omega

/-- Under the lru policy the loop terminates within items.length iterations
and enforces the bound provided every clock reading of the schedule is
strictly later than every resident entry's lastAccessed — i.e. the loop runs
after the clock has advanced past the set instant.  (While the clock still
reads the instant every entry was last accessed, an iteration evicts
nothing, since the strict less-than scan is initialised to Date.now(); such
readings merely spin and the loop exits once the clock ticks.) -/
theorem evictLoop_lru (cfg : Config)
    (hpol : cfg.evictionPolicy = .lru) (hmax : cfg.maxItems ≠ 0) :
    ∀ (ticks : List Nat) (s : St), (s.items.map Prod.fst).Nodup →
      (∀ t ∈ ticks, ∀ kv ∈ s.items, kv.2.lastAccessed < t) →
      s.items.length ≤ ticks.length + cfg.maxItems →
      ∃ s', evictLoop cfg ticks s = some s' ∧
        s'.items.length ≤ cfg.maxItems := by
  intro ticks
  induction ticks with
  | nil =>
    intro s hnd hla hlen
    have hcond : evictCond cfg s = false :=
      evictCond_false_of_le (by simpa using hlen)
    exact ⟨s, by simp [evictLoop, hcond], by simpa using hlen⟩
  | cons t ts ih =>
    intro s hnd hla hlen
    by_cases hcond : evictCond cfg s = true
    · obtain ⟨_, hgt⟩ := evictCond_true_elim hcond
      -- the store is nonempty and every entry is strictly older than t
      have hne : s.items ≠ [] := by
        intro h
        rw [h] at hgt
        simp at hgt
      rcases lruVictim_spec s.items t with ⟨_, hge⟩ | hvic
      · obtain ⟨kv, hkv⟩ := List.exists_mem_of_ne_nil s.items hne
        exact absurd (hge kv hkv)
          (Nat.not_le_of_lt (hla t (List.mem_cons_self t ts) kv hkv))
      · obtain ⟨l1, v, it, l2, hl, hvict, hlt, _, _⟩ := hvic
        have hvmem : v ∈ s.items.map Prod.fst := by
          refine List.mem_map.mpr ⟨(v, it), ?_, rfl⟩
          rw [hl]
          exact List.mem_append.mpr (Or.inr (List.mem_cons_self _ _))
        have hstep : evictStep cfg t s = evictLRU s t := by
          simp [evictStep, hpol]
        have hitems : (evictLRU s t).items = mapDelete s.items v :=
          evictLRU_items s t hvict
        have hsub : (evictLRU s t).items.Sublist s.items := by
          rw [hitems]
          exact mapDelete_sublist s.items v
        have hlen' : (evictLRU s t).items.length + 1 = s.items.length := by
          rw [hitems]
          exact mapDelete_length s.items v hvmem
        have hnd' : ((evictLRU s t).items.map Prod.fst).Nodup := by
          rw [hitems]
          exact mapDelete_keys_nodup s.items v hnd
        have hlen2 : (evictLRU s t).items.length ≤ ts.length + cfg.maxItems := by
          simp only [List.length_cons] at hlen
          omega
        obtain ⟨s', hs', hbound⟩ := ih (evictLRU s t) hnd'
          (fun t' ht' kv hkv =>
            hla t' (List.mem_cons_of_mem t ht') kv (hsub.mem hkv))
          hlen2
        refine ⟨s', ?_, hbound⟩
        rw [show evictLoop cfg (t :: ts) s =
          evictLoop cfg ts (evictStep cfg t s) by simp [evictLoop, hcond]]
        rw [hstep]
        exact hs'
    · have hcondf : evictCond cfg s = false := Bool.eq_false_iff.mpr hcond
      refine ⟨s, by simp [evictLoop, hcondf], ?_⟩
      simp only [evictCond, Bool.and_eq_false_iff] at hcondf
      rcases hcondf with h | h
      · simp [hmax] at h
      · simp only [decide_eq_false_iff_not] at h
        omega

theorem mem_mapSet {α : Type} (m : List (String × α)) (k : String) (v : α) :
    ∀ kv ∈ mapSet m k v, kv = (k, v) ∨ kv ∈ m := by
  induction m with
  | nil => simp [mapSet]
  | cons p rest ih =>
    intro kv hkv
    by_cases hpk : p.1 = k
    · simp only [mapSet, if_pos hpk, List.mem_cons] at hkv
      rcases hkv with rfl | h
      · exact Or.inl rfl
      · exact Or.inr (List.mem_cons_of_mem _ h)
    · simp only [mapSet, if_neg hpk, List.mem_cons] at hkv
      rcases hkv with rfl | h
      · exact Or.inr (List.mem_cons_self _ _)
      · rcases ih kv h with h1 | h1
        · exact Or.inl h1
        · exact Or.inr (List.mem_cons_of_mem _ h1)

theorem countP_mapSet_le {α : Type} (m : List (String × α)) (k : String) (v : α)
    (p : String × α → Bool) :
    (mapSet m k v).countP p ≤ m.countP p + 1 := by
  induction m with
  | nil =>
    simp only [mapSet, List.countP_cons, List.countP_nil]
    split_ifs <;> omega
  | cons q rest ih =>
    by_cases hpk : q.1 = k
    · simp only [mapSet, if_pos hpk, List.countP_cons]
      split_ifs <;> omega
    · simp only [mapSet, if_neg hpk, List.countP_cons]
      split_ifs <;> omega

theorem countP_mapModify_eq {α : Type} (m : List (String × α)) (k : String)
    (f : α → α) (p : String × α → Bool)
    (hp : ∀ a b, p (a, f b) = p (a, b)) :
    (mapModify m k f).countP p = m.countP p := by
  induction m with
  | nil => simp [mapModify]
  | cons q rest ih =>
    by_cases hpk : q.1 = k
    · simp only [mapModify, if_pos hpk, List.countP_cons]
      rw [hp q.1 q.2]
    · simp only [mapModify, if_neg hpk, List.countP_cons, ih]

theorem forall_mapModify {α : Type} {P : String × α → Prop}
    {f : α → α} (hf : ∀ a b, P (a, b) → P (a, f b)) :
    ∀ (m : List (String × α)) (k : String), (∀ kv ∈ m, P kv) →
      ∀ kv ∈ mapModify m k f, P kv := by
  intro m
  induction m with
  | nil => simp [mapModify]
  | cons q rest ih =>
    intro k h kv hkv
    by_cases hpk : q.1 = k
    · simp only [mapModify, if_pos hpk, List.mem_cons] at hkv
      rcases hkv with rfl | hkv
      · have : P (q.1, q.2) := h q (List.mem_cons_self _ _)
        exact hf q.1 q.2 this
      · exact h kv (List.mem_cons_of_mem _ hkv)
    · simp only [mapModify, if_neg hpk, List.mem_cons] at hkv
      rcases hkv with rfl | hkv
      · exact h kv (List.mem_cons_self _ _)
      · exact ih k (fun kv' hkv' => h kv' (List.mem_cons_of_mem _ hkv')) kv hkv

theorem countP_updateDependencies (items : List (String × CacheItem))
    (key : String) (deps : List String) (p : String × CacheItem → Bool)
    (hp : ∀ a b, p (a, { b with dependents := sadd key b.dependents }) = p (a, b)) :
    (updateDependencies items key deps).countP p = items.countP p := by
  induction deps generalizing items with
  | nil => simp [updateDependencies]
  | cons d ds ih =>
    have step : updateDependencies items key (d :: ds) =
        updateDependencies
          (mapModify items d
            (fun it => { it with dependents := sadd key it.dependents})) key ds := by
      simp [updateDependencies]
    rw [step, ih, countP_mapModify_eq _ _ _ _ hp]

theorem forall_updateDependencies {P : String × CacheItem → Prop} (key : String)
    (hf : ∀ a b, P (a, b) → P (a, { b with dependents := sadd key b.dependents })) :
    ∀ (deps : List String) (items : List (String × CacheItem)),
      (∀ kv ∈ items, P kv) → ∀ kv ∈ updateDependencies items key deps, P kv := by
  intro deps
  induction deps with
  | nil => simpa [updateDependencies] using fun items h => h
  | cons d ds ih =>
    intro items h
    have step : updateDependencies items key (d :: ds) =
        updateDependencies
          (mapModify items d
            (fun it => { it with dependents := sadd key it.dependents})) key ds := by
      simp [updateDependencies]
    rw [step]
    exact ih _ (forall_mapModify hf items d h)

theorem setItem_lastAccessed (cfg : Config) (v : JsVal)
    (ttlOpt staleTtlOpt : Option Nat) (dependsOn tagList : List String)
    (now : Nat) :
    (setItem cfg v ttlOpt staleTtlOpt dependsOn tagList now).lastAccessed =
      now := rfl

theorem setPre_items_eq (cfg : Config) (s : St) (key : String) (v : JsVal)
    (ttlOpt staleTtlOpt : Option Nat) (dependsOn tagList : List String)
    (now : Nat) :
    ∃ item : CacheItem, item.lastAccessed = now ∧
      (setPre cfg s key v ttlOpt staleTtlOpt dependsOn tagList now).items =
        updateDependencies (mapSet s.items key item) key item.dependsOn :=
  ⟨setItem cfg v ttlOpt staleTtlOpt dependsOn tagList now,
    setItem_lastAccessed cfg v ttlOpt staleTtlOpt dependsOn tagList now, rfl⟩

theorem setOp_eq (cfg : Config) (s : St) (key : String) (v : JsVal)
    (ttlOpt staleTtlOpt : Option Nat) (dependsOn tagList : List String)
    (now : Nat) (ticks : List Nat) :
    setOp cfg s key v ttlOpt staleTtlOpt dependsOn tagList now ticks =
      evictLoop cfg ticks
        (setPre cfg s key v ttlOpt staleTtlOpt dependsOn tagList now) := rfl

/-- set writes exactly one entry, so the pre-eviction store has at most one
entry more than the old store. -/
theorem setPre_items_length_le (cfg : Config) (s : St) (key : String)
    (v : JsVal) (ttlOpt staleTtlOpt : Option Nat)
    (dependsOn tagList : List String) (now : Nat) :
    (setPre cfg s key v ttlOpt staleTtlOpt dependsOn tagList now).items.length ≤
      s.items.length + 1 := by
  obtain ⟨item, _, hitems⟩ :=
    setPre_items_eq cfg s key v ttlOpt staleTtlOpt dependsOn tagList now
  have hkeys : ((setPre cfg s key v ttlOpt staleTtlOpt dependsOn tagList
      now).items.map Prod.fst) = (mapSet s.items key item).map Prod.fst := by
    rw [hitems, updateDependencies_keys]
  have hlen : (setPre cfg s key v ttlOpt staleTtlOpt dependsOn tagList
      now).items.length = (mapSet s.items key item).length := by
    have := congrArg List.length hkeys
    simpa using this
  rw [hlen]
  by_cases hk : key ∈ s.items.map Prod.fst
  · rw [mapSet_length_of_mem s.items key item hk]
    omega
  · rw [mapSet_length_of_not_mem s.items key item hk]

/-- Capacity bound of set under the lfu policy, given enough loop iterations
in the schedule (one per surplus entry; the source loop runs as many as the
guard demands, so any sufficiently long trace witnesses the real run). -/
theorem setOp_lfu_bound (cfg : Config) (s : St) (key : String) (v : JsVal)
    (ttlOpt staleTtlOpt : Option Nat) (dependsOn tagList : List String)
    (now : Nat) (ticks : List Nat)
    (hpol : cfg.evictionPolicy = .lfu) (hmax : cfg.maxItems ≠ 0)
    (hnd : (s.items.map Prod.fst).Nodup)
    (hlen : s.items.length + 1 ≤ ticks.length + cfg.maxItems) :
    ∃ s', setOp cfg s key v ttlOpt staleTtlOpt dependsOn tagList now ticks =
      some s' ∧ s'.items.length ≤ cfg.maxItems := by
  obtain ⟨item, _, hitems⟩ :=
    setPre_items_eq cfg s key v ttlOpt staleTtlOpt dependsOn tagList now
  have hnd4 : ((setPre cfg s key v ttlOpt staleTtlOpt dependsOn tagList
      now).items.map Prod.fst).Nodup := by
    rw [hitems, updateDependencies_keys]
    exact mapSet_keys_nodup s.items key item hnd
  have hlen4 := setPre_items_length_le cfg s key v ttlOpt staleTtlOpt
    dependsOn tagList now
  rw [setOp_eq]
  exact evictLoop_lfu cfg hpol hmax _ _ hnd4 (by omega)

/-- Capacity bound of set under the lru policy: no resident entry is newer
than the set instant (the clock is monotone), and the schedule's readings all
postdate the set instant (the clock has ticked) with enough of them for the
surplus. -/
theorem setOp_lru_bound (cfg : Config) (s : St) (key : String) (v : JsVal)
    (ttlOpt staleTtlOpt : Option Nat) (dependsOn tagList : List String)
    (now : Nat) (ticks : List Nat)
    (hpol : cfg.evictionPolicy = .lru) (hmax : cfg.maxItems ≠ 0)
    (hnd : (s.items.map Prod.fst).Nodup)
    (hla : ∀ kv ∈ s.items, kv.2.lastAccessed ≤ now)
    (hticks : ∀ t ∈ ticks, now < t)
    (hlen : s.items.length + 1 ≤ ticks.length + cfg.maxItems) :
    ∃ s', setOp cfg s key v ttlOpt staleTtlOpt dependsOn tagList now ticks =
      some s' ∧ s'.items.length ≤ cfg.maxItems := by
  obtain ⟨item, hitemla, hitems⟩ :=
    setPre_items_eq cfg s key v ttlOpt staleTtlOpt dependsOn tagList now
  have hnd4 : ((setPre cfg s key v ttlOpt staleTtlOpt dependsOn tagList
      now).items.map Prod.fst).Nodup := by
    rw [hitems, updateDependencies_keys]
    exact mapSet_keys_nodup s.items key item hnd
  have hla4 : ∀ kv ∈ (setPre cfg s key v ttlOpt staleTtlOpt dependsOn tagList
      now).items, kv.2.lastAccessed ≤ now := by
    rw [hitems]
    refine forall_updateDependencies key (fun a b hb => hb) item.dependsOn _ ?_
    intro kv hkv
    rcases mem_mapSet s.items key item kv hkv with rfl | h
    · exact Nat.le_of_eq hitemla
    · exact hla kv h
  have hlt4 : ∀ t ∈ ticks, ∀ kv ∈ (setPre cfg s key v ttlOpt staleTtlOpt
      dependsOn tagList now).items, kv.2.lastAccessed < t :=
    fun t ht kv hkv => Nat.lt_of_le_of_lt (hla4 kv hkv) (hticks t ht)
  have hlen4 := setPre_items_length_le cfg s key v ttlOpt staleTtlOpt
    dependsOn tagList now
  rw [setOp_eq]
  exact evictLoop_lru cfg hpol hmax _ _ hnd4 hlt4 (by omega)

/-- A stuck eviction loop: when the loop guard holds but the eviction step
changes nothing at any clock reading, the source's while loop never
terminates no matter how the clock behaves, and the model answers none on
every schedule. -/
theorem evictLoop_stuck (cfg : Config) (s : St)
    (hcond : evictCond cfg s = true) (hfix : ∀ t, evictStep cfg t s = s) :
    ∀ ticks, evictLoop cfg ticks s = none := by
  intro ticks
  induction ticks with
  | nil => simp [evictLoop, hcond]
  | cons t ts ih =>
    simp only [evictLoop, hcond, if_true, hfix t]
    exact ih

/-- evictTTL is the identity at every instant on a store whose entries all
have expiresAt undefined (entries set with no ttl and defaultTtl 0): the
truthiness guard item.expiresAt && now > item.expiresAt never fires. -/
theorem evictTTL_fixed (s : St) (hexp : ∀ kv ∈ s.items, kv.2.expiresAt = none)
    (hs : updateStats s = s) : ∀ t, evictTTL s t = s := by
  intro t
  have hkeep : s.items.filter (fun kv => ! ttlExpiredB t kv.2) = s.items := by
    apply List.filter_eq_self.mpr
    intro kv hkv
    simp [ttlExpiredB, hexp kv hkv]
  simp only [evictTTL, hkeep, Nat.sub_self, Nat.add_zero]
  exact hs

theorem mem_of_mapGet {α : Type} {m : List (String × α)} {k : String} {v : α}
    (h : mapGet m k = some v) : (k, v) ∈ m := by
  induction m with
  | nil => exact Option.noConfusion h
  | cons p rest ih =>
    by_cases hpk : p.1 = k
    · rw [mapGet, if_pos hpk] at h
      obtain rfl := Option.some_inj.mp h
      have : p = (k, p.2) := by
        rw [← hpk]
      rw [← this]
      exact List.mem_cons_self _ _
    · rw [mapGet, if_neg hpk] at h
      exact List.mem_cons_of_mem _ (ih h)

theorem mapGet_of_mem_nodup {α : Type} {m : List (String × α)} {k : String}
    {v : α} (hmem : (k, v) ∈ m) (hnd : (m.map Prod.fst).Nodup) :
    mapGet m k = some v := by
  induction m with
  | nil => exact absurd hmem (List.not_mem_nil _)
  | cons p rest ih =>
    simp only [List.map_cons, List.nodup_cons] at hnd
    rcases List.mem_cons.mp hmem with rfl | h
    · simp [mapGet]
    · have hpk : ¬ p.1 = k := by
        intro hpk
        exact hnd.1 (hpk ▸ List.mem_map.mpr ⟨(k, v), h, rfl⟩)
      rw [mapGet, if_neg hpk]
      exact ih h hnd.2

theorem mapGet_mono_sublist {α : Type} {m' m : List (String × α)} {k : String}
    {v : α} (hsub : m'.Sublist m) (hnd : (m.map Prod.fst).Nodup)
    (h : mapGet m' k = some v) : mapGet m k = some v :=
  mapGet_of_mem_nodup (hsub.mem (mem_of_mapGet h)) hnd

theorem symFwdB_iff (s : St) (hnd : (s.items.map Prod.fst).Nodup) :
    symFwdB s = true ↔ SymFwd s := by
  constructor
  · intro h A B itB itA hB hAmem hA
    rw [symFwdB, List.all_eq_true] at h
    have h1 := h (B, itB) (mem_of_mapGet hB)
    rw [List.all_eq_true] at h1
    have h2 := h1 A hAmem
    rw [hA] at h2
    simpa using h2
  · intro h
    rw [symFwdB, List.all_eq_true]
    intro bkv hbkv
    rw [List.all_eq_true]
    intro a ha
    cases hcase : mapGet s.items a with
    | none => simp
    | some ita =>
      have hB : mapGet s.items bkv.1 = some bkv.2 :=
        mapGet_of_mem_nodup (by
          have : (bkv.1, bkv.2) = bkv := rfl
          rw [this]
          exact hbkv) hnd
      simpa using h a bkv.1 bkv.2 ita hB ha hcase

theorem symFwd_of_sub {s' s : St} (hs : SymFwd s) (hsub : StSub s' s) :
    SymFwd s' := by
  intro A B itB' itA' hB' hAmem hA'
  rcases hsub.items_le B itB' hB' with ⟨itB, hB, hdsub, _, _⟩
  rcases hsub.items_le A itA' hA' with ⟨itA, hA, _, hAdep, _⟩
  rw [hAdep]
  exact hs A B itB itA hB (hdsub hAmem) hA

theorem StSub_of_items_sublist {s' s : St} (hsub : s'.items.Sublist s.items)
    (htags : s'.tags = s.tags) (hnd : (s.items.map Prod.fst).Nodup) :
    StSub s' s := by
  constructor
  · intro k it' h
    exact ⟨it', mapGet_mono_sublist hsub hnd h, fun _ ha => ha, rfl, rfl⟩
  · intro t tg' h
    rw [htags] at h
    exact ⟨tg', h, fun _ ha => ha⟩

theorem evictStep_items_sublist (cfg : Config) (now : Nat) (s : St) :
    (evictStep cfg now s).items.Sublist s.items ∧
      (evictStep cfg now s).tags = s.tags := by
  cases hp : cfg.evictionPolicy with
  | lru =>
    simp only [evictStep, hp]
    cases hv : lruVictim s.items now with
    | none => simp [evictLRU, hv]
    | some v =>
      constructor
      · rw [evictLRU_items s now hv]
        exact mapDelete_sublist s.items v
      · simp only [evictLRU, hv]
        rfl
  | lfu =>
    simp only [evictStep, hp]
    cases hv : lfuVictim s.items with
    | none => simp [evictLFU, hv]
    | some v =>
      constructor
      · rw [evictLFU_items s hv]
        exact mapDelete_sublist s.items v
      · simp only [evictLFU, hv]
        rfl
  | ttl =>
    have hstep : evictStep cfg now s = evictTTL s now := by
      simp [evictStep, hp]
    rw [hstep]
    exact ⟨List.filter_sublist s.items, rfl⟩
  | manual =>
    have hstep : evictStep cfg now s = s := by
      simp [evictStep, hp]
    rw [hstep]
    exact ⟨List.Sublist.refl _, rfl⟩

theorem evictLoop_post (cfg : Config) :
    ∀ (ticks : List Nat) (s s' : St), (s.items.map Prod.fst).Nodup →
      evictLoop cfg ticks s = some s' →
      s'.items.Sublist s.items ∧ s'.tags = s.tags ∧
        (s'.items.map Prod.fst).Nodup := by
  intro ticks
  induction ticks with
  | nil =>
    intro s s' hnd h
    rw [evictLoop] at h
    by_cases hcond : evictCond cfg s = true
    · rw [if_pos hcond] at h
      exact Option.noConfusion h
    · rw [if_neg hcond] at h
      obtain rfl := Option.some_inj.mp h
      exact ⟨List.Sublist.refl _, rfl, hnd⟩
  | cons t ts ih =>
    intro s s' hnd h
    rw [evictLoop] at h
    by_cases hcond : evictCond cfg s = true
    · rw [if_pos hcond] at h
      obtain ⟨hsub, htags⟩ := evictStep_items_sublist cfg t s
      have hnd1 : ((evictStep cfg t s).items.map Prod.fst).Nodup :=
        (hsub.map Prod.fst).nodup hnd
      obtain ⟨hsub', htags', hnd'⟩ := ih _ s' hnd1 h
      exact ⟨hsub'.trans hsub, htags'.trans htags, hnd'⟩
    · rw [if_neg hcond] at h
      obtain rfl := Option.some_inj.mp h
      exact ⟨List.Sublist.refl _, rfl, hnd⟩

theorem deleteList_post (fuel : Nat) :
    ∀ ks (s s' : St), (s.items.map Prod.fst).Nodup →
      (s.tags.map Prod.fst).Nodup → deleteListFuel fuel s ks = some s' →
      DelListPost s ks s' :=
  deleteList_aux fuel (delete_post fuel)

theorem StSub_bumpMiss (s : St) : StSub (bumpMiss s) s :=
  StSub.of_eq rfl rfl

theorem StSub_bumpHit (s : St) : StSub (bumpHit s) s :=
  StSub.of_eq rfl rfl

theorem getHitSt_items (s : St) (key : String) (item : CacheItem) (now : Nat) :
    (getHitSt s key item now).items = mapSet s.items key
      { item with
        accessCount := item.accessCount + 1
        lastAccessed := now } := rfl

theorem getHitSt_post (s : St) (key : String) (item : CacheItem) (now : Nat)
    (hndI : (s.items.map Prod.fst).Nodup)
    (hitem : mapGet s.items key = some item) :
    ((getHitSt s key item now).items.map Prod.fst).Nodup ∧
      (getHitSt s key item now).tags = s.tags ∧
      StSub (getHitSt s key item now) s := by
  refine ⟨?_, rfl, ?_⟩
  · rw [getHitSt_items]
    exact mapSet_keys_nodup s.items key _ hndI
  · constructor
    · intro k it' hk
      rw [getHitSt_items, mapGet_mapSet] at hk
      by_cases hkey : k = key
      · rw [if_pos hkey] at hk
        obtain rfl := Option.some_inj.mp hk
        exact ⟨item, hkey ▸ hitem, fun _ ha => ha, rfl, rfl⟩
      · rw [if_neg hkey] at hk
        exact ⟨it', hk, fun _ ha => ha, rfl, rfl⟩
    · intro t tg' ht
      exact ⟨tg', ht, fun _ ha => ha⟩

theorem getOp_post (cfg : Config) (s : St) (key : String) (now : Nat)
    (r : Option StoredVal) (s' : St)
    (hndI : (s.items.map Prod.fst).Nodup) (hndT : (s.tags.map Prod.fst).Nodup)
    (h : getOp cfg s key now = some (r, s')) :
    (s'.items.map Prod.fst).Nodup ∧ (s'.tags.map Prod.fst).Nodup ∧
      StSub s' s := by
  cases hitem : mapGet s.items key with
  | none =>
    simp only [getOp, hitem] at h
    obtain ⟨_, hs⟩ := Prod.mk.injEq .. ▸ Option.some_inj.mp h
    subst hs
    exact ⟨hndI, hndT, StSub_bumpMiss s⟩
  | some item =>
    simp only [getOp, hitem] at h
    by_cases hexp : isExpired item now = true
    · rw [if_pos hexp] at h
      cases hdel : deleteFuel (s.items.length + 1) s key with
      | none => rw [hdel] at h; exact Option.noConfusion h
      | some s1 =>
        rw [hdel] at h
        obtain ⟨nd1I, nd1T, sub1, _⟩ := delete_post _ s key s1 hndI hndT hdel
        obtain ⟨_, hs⟩ := Prod.mk.injEq .. ▸ Option.some_inj.mp h
        subst hs
        exact ⟨nd1I, nd1T, (StSub_bumpMiss s1).trans sub1⟩
    · rw [if_neg hexp] at h
      obtain ⟨hnd', htags', hsub'⟩ := getHitSt_post s key item now hndI hitem
      by_cases hcomp : (item.compressed && cfg.compression.enabled) = true
      · rw [if_pos hcomp] at h
        cases hdec : decompressUtil cfg.compression.algorithm item.value with
        | some v =>
          rw [hdec] at h
          obtain ⟨_, hs⟩ := Prod.mk.injEq .. ▸ Option.some_inj.mp h
          subst hs
          exact ⟨hnd', htags' ▸ hndT, hsub'⟩
        | none =>
          rw [hdec] at h
          obtain ⟨_, hs⟩ := Prod.mk.injEq .. ▸ Option.some_inj.mp h
          subst hs
          exact ⟨hnd', htags' ▸ hndT, hsub'⟩
      · rw [if_neg hcomp] at h
        obtain ⟨_, hs⟩ := Prod.mk.injEq .. ▸ Option.some_inj.mp h
        subst hs
        exact ⟨hnd', htags' ▸ hndT, hsub'⟩

/-- The contract of invalidateByTag: the returned list is the snapshot of the
tag's member set, the tag is removed from the index, every member key ends up
non-resident, and every removed entry was a member or a transitive dependent
of one. -/
theorem invalidateByTag_post (s : St) (tag : String) (keys : List String)
    (s' : St)
    (hndI : (s.items.map Prod.fst).Nodup) (hndT : (s.tags.map Prod.fst).Nodup)
    (h : invalidateByTagOp s tag = some (keys, s')) :
    (s'.items.map Prod.fst).Nodup ∧ (s'.tags.map Prod.fst).Nodup ∧
      StSub s' s ∧
      keys = (match mapGet s.tags tag with
        | some tg => tg.keys
        | none => []) ∧
      mapGet s'.tags tag = none ∧
      (∀ k ∈ keys, mapGet s'.items k = none) ∧
      (∀ x itx, mapGet s.items x = some itx → mapGet s'.items x = none →
        ∃ k ∈ keys, x = k ∨ Reaches s k x) := by
  cases htag : mapGet s.tags tag with
  | none =>
    simp only [invalidateByTagOp, htag] at h
    obtain ⟨hk, hs⟩ := Prod.mk.injEq .. ▸ Option.some_inj.mp h
    subst hs
    refine ⟨hndI, hndT, StSub.refl s, hk.symm, htag, ?_, ?_⟩
    · intro k hkmem
      rw [← hk] at hkmem
      exact absurd hkmem (List.not_mem_nil k)
    · intro x itx hx hx'
      rw [hx] at hx'
      exact Option.noConfusion hx'
  | some tagData =>
    simp only [invalidateByTagOp, htag] at h
    cases hlist : deleteListFuel (s.items.length + 1) s tagData.keys with
    | none => rw [hlist] at h; exact Option.noConfusion h
    | some s1 =>
      rw [hlist] at h
      obtain ⟨nd1I, nd1T, sub1, deadks, _, rem1⟩ :=
        deleteList_post _ _ s s1 hndI hndT hlist
      obtain ⟨hk, hs⟩ := Prod.mk.injEq .. ▸ Option.some_inj.mp h
      subst hs
      have hitems : ({ s1 with tags := mapDelete s1.tags tag } : St).items =
        s1.items := rfl
      refine ⟨nd1I, mapDelete_keys_nodup s1.tags tag nd1T, ?_, hk.symm, ?_, ?_, ?_⟩
      · refine StSub.trans ?_ sub1
        constructor
        · intro k it' hkget
          exact ⟨it', hkget, fun _ ha => ha, rfl, rfl⟩
        · intro t tg' ht
          rw [show ({ s1 with tags := mapDelete s1.tags tag } : St).tags =
            mapDelete s1.tags tag from rfl, mapGet_mapDelete _ _ _ nd1T] at ht
          by_cases htt : t = tag
          · rw [if_pos htt] at ht
            exact Option.noConfusion ht
          · rw [if_neg htt] at ht
            exact ⟨tg', ht, fun _ ha => ha⟩
      · rw [show ({ s1 with tags := mapDelete s1.tags tag } : St).tags =
          mapDelete s1.tags tag from rfl, mapGet_mapDelete _ _ _ nd1T, if_pos rfl]
      · intro k hkmem
        rw [hitems]
        rw [← hk] at hkmem
        exact deadks k hkmem
      · intro x itx hx hx'
        rw [hitems] at hx'
        obtain ⟨⟨k, hkmem, hcase⟩, _, _⟩ := rem1 x itx hx hx'
        exact ⟨k, hk ▸ hkmem, hcase⟩

theorem deleteGroup_post (s : St) (name : String) (s' : St)
    (hndI : (s.items.map Prod.fst).Nodup) (hndT : (s.tags.map Prod.fst).Nodup)
    (h : deleteGroupOp s name = some s') :
    (s'.items.map Prod.fst).Nodup ∧ (s'.tags.map Prod.fst).Nodup ∧
      StSub s' s := by
  cases hg : mapGet s.groups name with
  | none =>
    simp only [deleteGroupOp, hg] at h
    obtain rfl := Option.some_inj.mp h
    exact ⟨hndI, hndT, StSub.refl s⟩
  | some g =>
    simp only [deleteGroupOp, hg] at h
    cases hlist : deleteListFuel (s.items.length + 1) s g.keys with
    | none => rw [hlist] at h; exact Option.noConfusion h
    | some s1 =>
      rw [hlist] at h
      obtain rfl := Option.some_inj.mp h
      obtain ⟨nd1I, nd1T, sub1, _⟩ := deleteList_post _ _ s s1 hndI hndT hlist
      have hgr : StSub { s1 with groups := mapDelete s1.groups name } s1 :=
        StSub.of_eq rfl rfl
      exact ⟨nd1I, nd1T, hgr.trans sub1⟩

theorem setPre_lookup (cfg : Config) (s : St) (key : String) (v : JsVal)
    (ttlOpt staleTtlOpt : Option Nat) (dependsOn tagList : List String)
    (now : Nat) (u : String) (itu : CacheItem)
    (h : mapGet (setPre cfg s key v ttlOpt staleTtlOpt dependsOn tagList
      now).items u = some itu) :
    ∃ base : CacheItem, itu.dependsOn = base.dependsOn ∧
      ((u = key ∧ base = setItem cfg v ttlOpt staleTtlOpt dependsOn tagList now) ∨
        (u ≠ key ∧ mapGet s.items u = some base)) ∧
      (if u ∈ (setItem cfg v ttlOpt staleTtlOpt dependsOn tagList
          now).dependsOn then
        itu.dependents = sadd key base.dependents
      else itu.dependents = base.dependents) := by
  have hitems : (setPre cfg s key v ttlOpt staleTtlOpt dependsOn tagList
      now).items = updateDependencies
        (mapSet s.items key
          (setItem cfg v ttlOpt staleTtlOpt dependsOn tagList now))
        key (setItem cfg v ttlOpt staleTtlOpt dependsOn tagList
          now).dependsOn := rfl
  rw [hitems, mapGet_updateDependencies] at h
  by_cases hu : u ∈ (setItem cfg v ttlOpt staleTtlOpt dependsOn tagList
      now).dependsOn
  · rw [if_pos hu, mapGet_mapSet] at h
    by_cases hukey : u = key
    · rw [if_pos hukey] at h
      rw [Option.map_some'] at h
      obtain rfl := Option.some_inj.mp h
      refine ⟨setItem cfg v ttlOpt staleTtlOpt dependsOn tagList now, rfl,
        Or.inl ⟨hukey, rfl⟩, ?_⟩
      rw [if_pos hu]
    · rw [if_neg hukey] at h
      cases hbase : mapGet s.items u with
      | none => rw [hbase] at h; exact Option.noConfusion h
      | some base =>
        rw [hbase, Option.map_some'] at h
        obtain rfl := Option.some_inj.mp h
        refine ⟨base, rfl, Or.inr ⟨hukey, rfl⟩, ?_⟩
        rw [if_pos hu]
  · rw [if_neg hu, mapGet_mapSet] at h
    by_cases hukey : u = key
    · rw [if_pos hukey] at h
      obtain rfl := Option.some_inj.mp h
      refine ⟨setItem cfg v ttlOpt staleTtlOpt dependsOn tagList now, rfl,
        Or.inl ⟨hukey, rfl⟩, ?_⟩
      rw [if_neg hu]
    · rw [if_neg hukey] at h
      refine ⟨itu, rfl, Or.inr ⟨hukey, h⟩, ?_⟩
      rw [if_neg hu]

theorem setPre_symFwd (cfg : Config) (s : St) (key : String) (v : JsVal)
    (ttlOpt staleTtlOpt : Option Nat) (dependsOn tagList : List String)
    (now : Nat) (hsym : SymFwd s)
    (hfresh : mapGet s.items key = none)
    (hdangl : ∀ kv ∈ s.items, key ∉ kv.2.dependents) :
    SymFwd (setPre cfg s key v ttlOpt staleTtlOpt dependsOn tagList now) := by
  intro A B itB4 itA4 hB4 hAmem hA4
  obtain ⟨baseB, hBdep, hBsrc, hBdeps⟩ := setPre_lookup cfg s key v ttlOpt
    staleTtlOpt dependsOn tagList now B itB4 hB4
  obtain ⟨baseA, hAdep, hAsrc, _⟩ := setPre_lookup cfg s key v ttlOpt
    staleTtlOpt dependsOn tagList now A itA4 hA4
  -- split on whether B's dependents were augmented with key
  by_cases hBin : B ∈ (setItem cfg v ttlOpt staleTtlOpt dependsOn tagList
      now).dependsOn
  · rw [if_pos hBin] at hBdeps
    rw [hBdeps, mem_sadd] at hAmem
    rcases hAmem with rfl | hAold
    · -- A is the newly set key: B must lie in its dependsOn, which holds
      rcases hAsrc with ⟨_, hAbase⟩ | ⟨hAne, hAres⟩
      · rw [hAdep, hAbase]
        exact hBin
      · -- the key cannot be an old resident: it is fresh
        rw [hfresh] at hAres
        exact Option.noConfusion hAres
    · -- A is an old edge into baseB, which must be an old resident
      rcases hBsrc with ⟨_, hBbase⟩ | ⟨hBne, hBres⟩
      · -- B is the new item: its base dependents are empty
        rw [hBbase] at hAold
        exact absurd hAold (List.not_mem_nil A)
      · -- old edge: A cannot be the new key by the danglers guard
        have hAnekey : A ≠ key := by
          intro hak
          exact hdangl (B, baseB) (mem_of_mapGet hBres) (hak ▸ hAold)
        rcases hAsrc with ⟨hak, _⟩ | ⟨_, hAres⟩
        · exact absurd hak hAnekey
        · rw [hAdep]
          exact hsym A B baseB baseA hBres hAold hAres
  · rw [if_neg hBin] at hBdeps
    rw [hBdeps] at hAmem
    rcases hBsrc with ⟨_, hBbase⟩ | ⟨hBne, hBres⟩
    · rw [hBbase] at hAmem
      exact absurd hAmem (List.not_mem_nil A)
    · have hAnekey : A ≠ key := by
        intro hak
        exact hdangl (B, baseB) (mem_of_mapGet hBres) (hak ▸ hAmem)
      rcases hAsrc with ⟨hak, _⟩ | ⟨_, hAres⟩
      · exact absurd hak hAnekey
      · rw [hAdep]
        exact hsym A B baseB baseA hBres hAmem hAres

theorem setPre_tags_eq (cfg : Config) (s : St) (key : String) (v : JsVal)
    (ttlOpt staleTtlOpt : Option Nat) (dependsOn tagList : List String)
    (now : Nat) :
    (setPre cfg s key v ttlOpt staleTtlOpt dependsOn tagList now).tags =
      updateTags s.tags key
        (setItem cfg v ttlOpt staleTtlOpt dependsOn tagList now).tags now := rfl

theorem setPre_nodups (cfg : Config) (s : St) (key : String) (v : JsVal)
    (ttlOpt staleTtlOpt : Option Nat) (dependsOn tagList : List String)
    (now : Nat) (hndI : (s.items.map Prod.fst).Nodup)
    (hndT : (s.tags.map Prod.fst).Nodup) :
    ((setPre cfg s key v ttlOpt staleTtlOpt dependsOn tagList
      now).items.map Prod.fst).Nodup ∧
    ((setPre cfg s key v ttlOpt staleTtlOpt dependsOn tagList
      now).tags.map Prod.fst).Nodup := by
  constructor
  · obtain ⟨item, _, hitems⟩ :=
      setPre_items_eq cfg s key v ttlOpt staleTtlOpt dependsOn tagList now
    rw [hitems, updateDependencies_keys]
    exact mapSet_keys_nodup s.items key item hndI
  · rw [setPre_tags_eq]
    exact updateTags_keys_nodup s.tags key _ now hndT

theorem stepOp_preserves (cfg : Config) (s : St) (op : Op) (s' : St)
    (hndI : (s.items.map Prod.fst).Nodup) (hndT : (s.tags.map Prod.fst).Nodup)
    (hsym : SymFwd s) (hguard : freshOk s op = true)
    (h : stepOp cfg s op = some s') :
    (s'.items.map Prod.fst).Nodup ∧ (s'.tags.map Prod.fst).Nodup ∧
      SymFwd s' := by
  cases op with
  | opSet key v ttlOpt staleTtlOpt dependsOn tagList now ticks =>
    simp only [freshOk, Bool.and_eq_true, Bool.not_eq_true',
      List.all_eq_true, decide_eq_true_eq] at hguard
    obtain ⟨hfresh0, hdangl⟩ := hguard
    have hfresh : mapGet s.items key = none :=
      Option.not_isSome_iff_eq_none.mp (by rw [hfresh0]; exact Bool.false_ne_true)
    obtain ⟨hnd4I, hnd4T⟩ :=
      setPre_nodups cfg s key v ttlOpt staleTtlOpt dependsOn tagList now
        hndI hndT
    have hsym4 : SymFwd (setPre cfg s key v ttlOpt staleTtlOpt dependsOn
        tagList now) :=
      setPre_symFwd cfg s key v ttlOpt staleTtlOpt dependsOn tagList now
        hsym hfresh hdangl
    have hloop : evictLoop cfg ticks
        (setPre cfg s key v ttlOpt staleTtlOpt dependsOn tagList now) =
        some s' := h
    obtain ⟨hsub, htags, hnd'⟩ := evictLoop_post cfg ticks _ s' hnd4I hloop
    refine ⟨hnd', htags ▸ hnd4T, ?_⟩
    exact symFwd_of_sub hsym4 (StSub_of_items_sublist hsub htags hnd4I)
  | opGet key now =>
    simp only [stepOp] at h
    cases hg : getOp cfg s key now with
    | none => rw [hg] at h; exact Option.noConfusion h
    | some rs =>
      rw [hg, Option.map_some'] at h
      obtain rfl := Option.some_inj.mp h
      obtain ⟨hnd', hndT', hsub⟩ :=
        getOp_post cfg s key now rs.1 rs.2 hndI hndT (by rw [hg])
      exact ⟨hnd', hndT', symFwd_of_sub hsym hsub⟩
  | opDelete key =>
    simp only [stepOp] at h
    obtain ⟨hnd', hndT', hsub, _⟩ :=
      delete_post (s.items.length + 1) s key s' hndI hndT h
    exact ⟨hnd', hndT', symFwd_of_sub hsym hsub⟩
  | opInvalidateByTag tag =>
    simp only [stepOp] at h
    cases hg : invalidateByTagOp s tag with
    | none => rw [hg] at h; exact Option.noConfusion h
    | some rs =>
      rw [hg, Option.map_some'] at h
      obtain rfl := Option.some_inj.mp h
      obtain ⟨hnd', hndT', hsub, _⟩ :=
        invalidateByTag_post s tag rs.1 rs.2 hndI hndT (by rw [hg])
      exact ⟨hnd', hndT', symFwd_of_sub hsym hsub⟩
  | opCreateGroup name =>
    simp only [stepOp] at h
    obtain rfl := Option.some_inj.mp h
    exact ⟨hndI, hndT, symFwd_of_sub hsym (StSub.of_eq rfl rfl)⟩
  | opAddToGroup name key =>
    simp only [stepOp] at h
    obtain rfl := Option.some_inj.mp h
    have : StSub (addToGroupOp s name key) s := by
      apply StSub.of_eq
      · simp only [addToGroupOp]
        cases mapGet s.groups name <;> rfl
      · simp only [addToGroupOp]
        cases mapGet s.groups name <;> rfl
    exact ⟨by
        have hi : (addToGroupOp s name key).items = s.items := by
          simp only [addToGroupOp]
          cases mapGet s.groups name <;> rfl
        rw [hi]
        exact hndI,
      by
        have ht : (addToGroupOp s name key).tags = s.tags := by
          simp only [addToGroupOp]
          cases mapGet s.groups name <;> rfl
        rw [ht]
        exact hndT,
      symFwd_of_sub hsym this⟩
  | opDeleteGroup name =>
    simp only [stepOp] at h
    obtain ⟨hnd', hndT', hsub⟩ := deleteGroup_post s name s' hndI hndT h
    exact ⟨hnd', hndT', symFwd_of_sub hsym hsub⟩
  | opClear =>
    simp only [stepOp] at h
    obtain rfl := Option.some_inj.mp h
    refine ⟨by simp [clearOp, updateStats], hndT, ?_⟩
    intro A B itB itA hB _ _
    exact absurd hB (by simp [clearOp, updateStats, mapGet])

theorem runOps_post (cfg : Config) :
    ∀ (ops : List Op) (s s' : St), (s.items.map Prod.fst).Nodup →
      (s.tags.map Prod.fst).Nodup → SymFwd s →
      guardedRun cfg s ops = true → runOps cfg s ops = some s' →
      (s'.items.map Prod.fst).Nodup ∧ (s'.tags.map Prod.fst).Nodup ∧
        SymFwd s' := by
  intro ops
  induction ops with
  | nil =>
    intro s s' hndI hndT hsym _ hrun
    rw [runOps] at hrun
    obtain rfl := Option.some_inj.mp hrun
    exact ⟨hndI, hndT, hsym⟩
  | cons op ops ih =>
    intro s s' hndI hndT hsym hguard hrun
    rw [runOps] at hrun
    rw [guardedRun, Bool.and_eq_true] at hguard
    cases hstep : stepOp cfg s op with
    | none => rw [hstep] at hrun; exact Option.noConfusion hrun
    | some s1 =>
      rw [hstep] at hrun
      obtain ⟨hnd1, hndT1, hsym1⟩ :=
        stepOp_preserves cfg s op s1 hndI hndT hsym hguard.1 hstep
      have hguard1 : guardedRun cfg s1 ops = true := by
        have := hguard.2
        rw [hstep] at this
        exact this
      exact ih s1 s' hnd1 hndT1 hsym1 hguard1 hrun

/-! ## Helpers for assembling the claim-level statements -/

theorem delPost_reaches_dead {s : St} {key : String} {s' : St}
    (hpost : DelPost s key s') :
    ∀ d, Reaches s key d → mapGet s'.items d = none := by
  obtain ⟨_, _, _, hdead, hedges, _⟩ := hpost
  intro d hd
  induction hd with
  | single he =>
    rcases hedges _ _ he with he' | hdead'
    · rcases he' with ⟨it, hit, _⟩
      rw [hdead] at hit
      exact Option.noConfusion hit
    · exact hdead'
  | tail hr he ihr =>
    rcases hedges _ _ he with he' | hdead'
    · rcases he' with ⟨it, hit, _⟩
      rw [ihr] at hit
      exact Option.noConfusion hit
    · exact hdead'

theorem reaches_head {s : St} {u v : String} (h : Reaches s u v) :
    ∃ w, edge s u w := by
  induction h with
  | single he => exact ⟨_, he⟩
  | tail _ _ ih => exact ih

/-- A key whose entry lists no dependents reaches nothing. -/
theorem no_edges_no_reach (s : St) (u : String)
    (h : (match mapGet s.items u with
      | some it => it.dependents.isEmpty
      | none => true) = true) :
    ∀ v, ¬ Reaches s u v := by
  intro v hr
  rcases reaches_head hr with ⟨w, it, hit, hmem⟩
  rw [hit] at h
  simp only [List.isEmpty_iff] at h
  rw [h] at hmem
  exact absurd hmem (List.not_mem_nil w)

theorem cbExecute_closed_run (cfg : CircuitBreakerConfig) (cb : CB) (now : Nat)
    (outcome : LoaderOutcome) (fb : Bool) (hen : cfg.enabled = true)
    (hst : cb.state.state ≠ .opened) :
    cbExecute cfg cb now outcome fb =
      (match outcome with
      | .succeeds v => ⟨.opValue v, onSuccess cb, true⟩
      | .fails =>
        ⟨if fb then .fallbackValue else .opError, onFailure cfg cb now, true⟩) := by
  simp [cbExecute, hen, hst]

theorem onFailure_below (cfg : CircuitBreakerConfig) (cb : CB) (now : Nat)
    (h : cb.failureCount + 1 < cfg.failureThreshold) :
    (onFailure cfg cb now).state.state = cb.state.state ∧
      (onFailure cfg cb now).failureCount = cb.failureCount + 1 := by
  have hle : ¬ cfg.failureThreshold ≤ cb.failureCount + 1 := by omega
  simp [onFailure, hle]

theorem onFailure_at_threshold (cfg : CircuitBreakerConfig) (cb : CB)
    (now : Nat) (h : cfg.failureThreshold ≤ cb.failureCount + 1) :
    (onFailure cfg cb now).state.state = .opened ∧
      (onFailure cfg cb now).state.nextAttemptTime =
        now + cfg.recoveryTimeout := by
  simp [onFailure, h]

theorem runFailures_opens (cfg : CircuitBreakerConfig)
    (hen : cfg.enabled = true) :
    ∀ (times : List Nat) (cb : CB), cb.state.state = .closed →
      1 ≤ times.length →
      cb.failureCount + times.length = cfg.failureThreshold →
      (runFailures cfg cb times).state.state = .opened := by
  intro times
  induction times with
  | nil =>
    intro cb _ hlen _
    simp at hlen
  | cons t ts ih =>
    intro cb hst hlen hcnt
    have hne : cb.state.state ≠ .opened := by
      rw [hst]
      exact fun hh => CBMode.noConfusion hh
    have hstep : (cbExecute cfg cb t .fails false).cb = onFailure cfg cb t := by
      rw [cbExecute_closed_run cfg cb t .fails false hen hne]
    have hrun : runFailures cfg cb (t :: ts) =
        runFailures cfg (onFailure cfg cb t) ts := by
      simp only [runFailures, List.foldl_cons]
      rw [hstep]
    rw [hrun]
    cases ts with
    | nil =>
      have hth : cfg.failureThreshold ≤ cb.failureCount + 1 := by
        simp only [List.length_cons, List.length_nil] at hcnt
        omega
      obtain ⟨hopen, _⟩ := onFailure_at_threshold cfg cb t hth
      simpa [runFailures] using hopen
    | cons t2 ts2 =>
      have hlt : cb.failureCount + 1 < cfg.failureThreshold := by
        simp only [List.length_cons] at hcnt
        omega
      obtain ⟨hstate, hcount⟩ := onFailure_below cfg cb t hlt
      refine ih (onFailure cfg cb t) (by rw [hstate, hst]) (by simp) ?_
      rw [hcount]
      simp only [List.length_cons] at hcnt ⊢
      omega

/-! ## C2 -/

/-- C2: in the claimed stale window (expiresAt ≤ now < staleAt, here
expiresAt = 100, staleAt = 200, now = 150) getOrComputeWithStale does NOT
return the cached value with a background refresh: isStale is false there
(the source tests now > staleAt), so the code falls through to the
synchronous-load branch, blocks on the loader and returns the loader's value.
This evaluates the model at that failing input. -/
theorem C2_stale_window_is_synchronous :
    setOp cfgSwrC emptySt "k" (.jstr "v1") (some 100) (some 200) [] []
        0 [] = some c2St ∧
    (mapGet c2St.items "k").map
      (fun it => (it.expiresAt, it.staleAt, isExpired it 150, isStale it 150)) =
      some (some 100, some 200, true, false) ∧
    (gocwsOp cfgSwrC c2St "k" (.jstr "v2") (some 100) (some 200) [] []
        150 []).map
      (fun o => (o.value, o.syncLoad, o.bgScheduled)) =
      some (some (.plain (.jstr "v2")), true, false) := by
  decide

/-! ## C7 -/

/-- C7: with compression enabled and a value whose serialized size is below
the threshold, set stores Buffer.from(JSON.stringify(v)) and get returns that
Buffer rather than a value deep-equal to v: the round trip fails on this
failing input ('small' under threshold 1000); the repo's own test
'should not compress small values' expects the original string back. -/
theorem C7_small_value_round_trip_fails :
    setOp cfgComp emptySt "small-key" (.jstr "small") none none [] []
        0 [] = some c7St ∧
    (getOp cfgComp c7St "small-key" 1).map Prod.fst =
      some (some (StoredVal.jsonBuf (.jstr "small"))) ∧
    StoredVal.jsonBuf (.jstr "small") ≠ StoredVal.plain (.jstr "small") := by
  decide

/-! ## C8 -/

/-- C8 counterexample: after clear() on a state holding a tagged entry and a
group, the tag index and the group registry are NOT empty — clear() drops
only the entry store. -/
theorem C8_counterexample :
    (clearOp c8St).items.isEmpty = true ∧
    (clearOp c8St).tags.isEmpty = false ∧
    (clearOp c8St).groups.isEmpty = false := by
  decide

/-- C8 (amended): clear() empties the entry store and leaves the tag index
and the group registry untouched; being a single synchronous mutation there
is no partially cleared state observable by readers. -/
theorem C8_clear_amended :
    ∀ s : St, (clearOp s).items = [] ∧ (clearOp s).tags = s.tags ∧
      (clearOp s).groups = s.groups :=
  fun _ => ⟨rfl, rfl, rfl⟩

/-! ## C9 -/

/-- C9 counterexample: with the range strategy and the empty key, charAt(0)
is the empty string and charCodeAt(0) is NaN, so getPartition returns NaN —
not an integer bucket in [0, N). -/
theorem C9_counterexample :
    getPartition cfgRange4 "" = JsNum.nan ∧ JsNum.nan ≠ JsNum.int 0 := by
  decide

/-- C9 (amended): with at least one partition, getPartition returns an
integer bucket below the partition count for the hash and custom strategies
on every key, for a disabled assigner (bucket 0), and for the range strategy
whenever the effective key (after any partitionKey transform) is non-empty;
the empty-key range case yields NaN.  The mapping is a pure function of the
configuration and key, hence deterministic. -/
theorem C9_partition_amended :
    (∀ (cfg : PartitioningConfig) (key : String), 1 ≤ cfg.partitions →
      cfg.enabled = false → getPartition cfg key = .int 0) ∧
    (∀ (cfg : PartitioningConfig) (key : String), 1 ≤ cfg.partitions →
      cfg.enabled = true → (cfg.strategy = .hash ∨ cfg.strategy = .custom) →
      ∃ b : Nat, getPartition cfg key = .int b ∧ b < cfg.partitions) ∧
    (∀ (cfg : PartitioningConfig) (key : String), 1 ≤ cfg.partitions →
      cfg.enabled = true → cfg.strategy = .range →
      (match cfg.partitionKey with
        | some f => f key
        | none => key).data ≠ [] →
      ∃ b : Nat, getPartition cfg key = .int b ∧ b < cfg.partitions) := by
  refine ⟨?_, ?_, ?_⟩
  · intro cfg key _ hen
    simp [getPartition, hen]
  · intro cfg key hpart hen hstrat
    have hne : cfg.partitions ≠ 0 := by omega
    rcases hstrat with hs | hs
    · refine ⟨(hashStringVal (match cfg.partitionKey with
        | some f => f key
        | none => key)).natAbs % cfg.partitions, ?_, Nat.mod_lt _ (by omega)⟩
      simp [getPartition, hen, hs, hashPartition, jsModNat, hne]
    · refine ⟨(hashStringVal (match cfg.partitionKey with
        | some f => f key
        | none => key)).natAbs % cfg.partitions, ?_, Nat.mod_lt _ (by omega)⟩
      simp [getPartition, hen, hs, customPartition, hashPartition, jsModNat, hne]
  · intro cfg key hpart hen hstrat hne
    have hne0 : cfg.partitions ≠ 0 := by omega
    cases hdata : (match cfg.partitionKey with
      | some f => f key
      | none => key).data with
    | nil => exact absurd hdata hne
    | cons c rest =>
      refine ⟨c.toLower.toNat % cfg.partitions, ?_, Nat.mod_lt _ (by omega)⟩
      simp only [getPartition, hen, Bool.not_true, if_false, hstrat]
      simp [rangePartition, hdata, jsModNat, hne0]

/-! ## C10 -/

/-- C10: the public isBalanced() query answers true in every state: the
source computes this.partitioningUtil?.isBalanced() || true, which is true
when partitioning is disabled (undefined || true) and true regardless of the
utility's standard-deviation verdict (false || true and true || true). -/
theorem C10_isBalanced_always_true :
    ∀ putil : Option (List PartitionInfo), cachlyIsBalanced putil = true := by
  intro p
  cases p with
  | none => rfl
  | some ps =>
    cases h : utilIsBalanced ps <;> simp [cachlyIsBalanced, jsOrBool, h]

/-! ## C6 -/

/-- C6: the circuit-breaker state machine as claimed. (1) While closed (and
enabled), execute runs the operation. (2) From a fresh breaker, a run of
consecutive failures of length failureThreshold opens the circuit. (3) While
open and before nextAttemptTime, execute rejects without invoking the loader,
returning the fallback if one is given and the breaker-open error otherwise.
(4) At or after nextAttemptTime the breaker transitions to half-open for the
trial call: a success closes the circuit and resets the failure counters.
(5) A trial failure (with the private failure counter still at or above
threshold minus one) re-opens it and pushes nextAttemptTime to
now + recoveryTimeout. -/
theorem C6_circuit_breaker_machine :
    (∀ (cfg : CircuitBreakerConfig) (cb : CB) (now : Nat)
      (outcome : LoaderOutcome) (fb : Bool), cfg.enabled = true →
      cb.state.state = .closed →
      (cbExecute cfg cb now outcome fb).loaderInvoked = true) ∧
    (∀ (cfg : CircuitBreakerConfig) (times : List Nat), cfg.enabled = true →
      1 ≤ times.length → times.length = cfg.failureThreshold →
      (runFailures cfg cbInit times).state.state = .opened) ∧
    (∀ (cfg : CircuitBreakerConfig) (cb : CB) (now : Nat)
      (outcome : LoaderOutcome) (fb : Bool), cfg.enabled = true →
      cb.state.state = .opened → now < cb.state.nextAttemptTime →
      cbExecute cfg cb now outcome fb =
        ⟨if fb then .fallbackValue else .breakerOpenError, cb, false⟩) ∧
    (∀ (cfg : CircuitBreakerConfig) (cb : CB) (now : Nat) (v : JsVal)
      (fb : Bool), cfg.enabled = true → cb.state.state = .opened →
      cb.state.nextAttemptTime ≤ now →
      (cbExecute cfg cb now (.succeeds v) fb).result = .opValue v ∧
      (cbExecute cfg cb now (.succeeds v) fb).loaderInvoked = true ∧
      (cbExecute cfg cb now (.succeeds v) fb).cb.state.state = .closed ∧
      (cbExecute cfg cb now (.succeeds v) fb).cb.failureCount = 0 ∧
      (cbExecute cfg cb now (.succeeds v) fb).cb.state.failureCount = 0) ∧
    (∀ (cfg : CircuitBreakerConfig) (cb : CB) (now : Nat) (fb : Bool),
      cfg.enabled = true → cb.state.state = .opened →
      cb.state.nextAttemptTime ≤ now →
      cfg.failureThreshold ≤ cb.failureCount + 1 →
      (cbExecute cfg cb now .fails fb).loaderInvoked = true ∧
      (cbExecute cfg cb now .fails fb).cb.state.state = .opened ∧
      (cbExecute cfg cb now .fails fb).cb.state.nextAttemptTime =
        now + cfg.recoveryTimeout) := by
  refine ⟨?_, ?_, ?_, ?_, ?_⟩
  · intro cfg cb now outcome fb hen hst
    have hne : cb.state.state ≠ .opened := by
      rw [hst]
      exact fun hh => CBMode.noConfusion hh
    rw [cbExecute_closed_run cfg cb now outcome fb hen hne]
    cases outcome <;> rfl
  · intro cfg times hen hlen hcnt
    exact runFailures_opens cfg hen times cbInit rfl hlen (by simp [cbInit, hcnt])
  · intro cfg cb now outcome fb hen hst hlt
    simp [cbExecute, hen, hst, hlt]
  · intro cfg cb now v fb hen hst hle
    have hnlt : ¬ now < cb.state.nextAttemptTime := by omega
    simp [cbExecute, hen, hst, hnlt, onSuccess]
  · intro cfg cb now fb hen hst hle hth
    have hnlt : ¬ now < cb.state.nextAttemptTime := by omega
    simp [cbExecute, hen, hst, hnlt, onFailure, hth]

/-- A run that drives a concrete breaker (threshold 2, recovery 100) through
all five clauses of the machine. -/
theorem C6_witness :
    ((true : Bool) = true ∧ CBMode.closed = CBMode.closed ∧
      (cbExecute cbCfg2 cbInit 0 .fails false).loaderInvoked = true) ∧
    (1 ≤ ([0, 10] : List Nat).length ∧
      ([0, 10] : List Nat).length = cbCfg2.failureThreshold ∧
      (runFailures cbCfg2 cbInit [0, 10]).state.state = .opened) ∧
    ((runFailures cbCfg2 cbInit [0, 10]).state.state = .opened ∧
      (50 : Nat) < (runFailures cbCfg2 cbInit [0, 10]).state.nextAttemptTime ∧
      cbExecute cbCfg2 (runFailures cbCfg2 cbInit [0, 10]) 50
          (.succeeds (.jstr "x")) false =
        ⟨.breakerOpenError, runFailures cbCfg2 cbInit [0, 10], false⟩) ∧
    ((runFailures cbCfg2 cbInit [0, 10]).state.nextAttemptTime ≤ 150 ∧
      (cbExecute cbCfg2 (runFailures cbCfg2 cbInit [0, 10]) 150
        (.succeeds (.jstr "x")) false).cb.state.state = .closed) ∧
    (cbCfg2.failureThreshold ≤
        (runFailures cbCfg2 cbInit [0, 10]).failureCount + 1 ∧
      (cbExecute cbCfg2 (runFailures cbCfg2 cbInit [0, 10]) 150
        .fails false).cb.state.nextAttemptTime = 150 + cbCfg2.recoveryTimeout) := by
  refine ⟨⟨rfl, rfl, ?_⟩, ⟨by decide, by decide, ?_⟩, ⟨by decide, by decide, ?_⟩,
    ⟨by decide, ?_⟩, ⟨by decide, ?_⟩⟩
  · exact C6_circuit_breaker_machine.1 cbCfg2 cbInit 0 .fails false rfl rfl
  · exact C6_circuit_breaker_machine.2.1 cbCfg2 [0, 10] rfl (by decide) (by decide)
  · exact C6_circuit_breaker_machine.2.2.1 cbCfg2 (runFailures cbCfg2 cbInit [0, 10])
      50 (.succeeds (.jstr "x")) false rfl (by decide) (by decide)
  · exact (C6_circuit_breaker_machine.2.2.2.1 cbCfg2
      (runFailures cbCfg2 cbInit [0, 10]) 150 (.jstr "x") false rfl (by decide)
      (by decide)).2.2.1
  · exact (C6_circuit_breaker_machine.2.2.2.2 cbCfg2
      (runFailures cbCfg2 cbInit [0, 10]) 150 false rfl (by decide) (by decide)
      (by decide)).2.2

/-- C1 counterexample: set does NOT always terminate with
items.size ≤ maxItems under the ttl policy.  Over a full store of
never-expiring entries (no ttl given, defaultTtl 0, so expiresAt is
undefined and the sweep's truthiness guard never fires), evictTTL removes
nothing at ANY clock reading, so evictIfNeeded's while loop spins forever:
the model answers none on every clock schedule, however long and however
the clock advances, and the second set never returns. -/
theorem C1_counterexample :
    setOp cfgTtlOne emptySt "a" (.jstr "va") none none [] [] 0 [] =
      some c1St ∧
    (mapGet c1St.items "a").map (fun it => it.expiresAt) = some none ∧
    (∀ ticks, evictLoop cfgTtlOne ticks
      (setPre cfgTtlOne c1St "b" (.jstr "vb") none none [] [] 1) = none) ∧
    (∀ ticks,
      setOp cfgTtlOne c1St "b" (.jstr "vb") none none [] [] 1 ticks = none) := by
  have hfix : ∀ t, evictStep cfgTtlOne t
      (setPre cfgTtlOne c1St "b" (.jstr "vb") none none [] [] 1) =
      setPre cfgTtlOne c1St "b" (.jstr "vb") none none [] [] 1 := by
    intro t
    exact evictTTL_fixed _ (by decide) (by decide) t
  have hstuck := evictLoop_stuck cfgTtlOne _ (by decide) hfix
  exact ⟨by decide, by decide, hstuck, fun ticks => hstuck ticks⟩

/-- C1 (amended): the capacity bound holds for the lru and lfu policies.
Under lfu, set terminates with items.size ≤ maxItems on every clock
schedule long enough for the surplus (at most items.length iterations; the
lfu scan never reads the clock).  Under lru the same holds on every schedule
whose readings postdate the set instant — i.e. as soon as the clock has
ticked past the millisecond of the set; a reading at the set instant itself
merely spins, because evictLRU initialises its strict less-than scan to
Date.now() and so selects no victim among entries last accessed at that very
reading.  In both policies each iteration evicts the first entry in
iteration order attaining the minimum (accessCount resp. lastAccessed), so
tie-breaking is deterministic.  The bound fails for the ttl policy: a full
store of never-expiring entries diverges on every schedule (see the
counterexample). -/
theorem C1_capacity_bound_amended :
    (∀ (cfg : Config) (s : St) (key : String) (v : JsVal)
      (ttlOpt staleTtlOpt : Option Nat) (dependsOn tagList : List String)
      (now : Nat) (ticks : List Nat),
      cfg.evictionPolicy = .lfu → cfg.maxItems ≠ 0 →
      (s.items.map Prod.fst).Nodup →
      s.items.length + 1 ≤ ticks.length + cfg.maxItems →
      ∃ s', setOp cfg s key v ttlOpt staleTtlOpt dependsOn tagList now ticks =
          some s' ∧ s'.items.length ≤ cfg.maxItems) ∧
    (∀ (cfg : Config) (s : St) (key : String) (v : JsVal)
      (ttlOpt staleTtlOpt : Option Nat) (dependsOn tagList : List String)
      (now : Nat) (ticks : List Nat),
      cfg.evictionPolicy = .lru → cfg.maxItems ≠ 0 →
      (s.items.map Prod.fst).Nodup →
      (∀ kv ∈ s.items, kv.2.lastAccessed ≤ now) →
      (∀ t ∈ ticks, now < t) →
      s.items.length + 1 ≤ ticks.length + cfg.maxItems →
      ∃ s', setOp cfg s key v ttlOpt staleTtlOpt dependsOn tagList now ticks =
          some s' ∧ s'.items.length ≤ cfg.maxItems) := by
  constructor
  · intro cfg s key v ttlOpt staleTtlOpt dependsOn tagList now ticks hpol hmax
      hnd hlen
    exact setOp_lfu_bound cfg s key v ttlOpt staleTtlOpt dependsOn tagList now
      ticks hpol hmax hnd hlen
  · intro cfg s key v ttlOpt staleTtlOpt dependsOn tagList now ticks hpol hmax
      hnd hla hticks hlen
    exact setOp_lru_bound cfg s key v ttlOpt staleTtlOpt dependsOn tagList now
      ticks hpol hmax hnd hla hticks hlen

/-- The capacity bound exercised on concrete stores: an lfu set on the empty
store with no loop iterations, an lfu set over a full one-entry store with a
one-reading schedule (forcing one eviction), and an lru set at t = 9 over
two entries last accessed at t = 1 and t = 2 with maxItems = 2, with the
clock reading t = 10 for the one eviction the third entry forces. -/
theorem C1_witness :
    cfgLfuTwo.evictionPolicy = .lfu ∧ cfgLfuTwo.maxItems ≠ 0 ∧
    (∃ s', setOp cfgLfuTwo emptySt "a" (.jstr "v") none none [] [] 0 [] =
      some s' ∧ s'.items.length ≤ cfgLfuTwo.maxItems) ∧
    c1fSt.items.length + 1 ≤ [1].length + cfgLfuOne.maxItems ∧
    (∃ s', setOp cfgLfuOne c1fSt "b" (.jstr "vb") none none [] [] 1 [1] =
      some s' ∧ s'.items.length ≤ cfgLfuOne.maxItems) ∧
    cfgLruTwo.evictionPolicy = .lru ∧
    (∀ kv ∈ c1wSt.items, kv.2.lastAccessed ≤ 9) ∧
    (∀ t ∈ [10], 9 < t) ∧
    (∃ s', setOp cfgLruTwo c1wSt "c" (.jstr "vc") none none [] [] 9 [10] =
      some s' ∧ s'.items.length ≤ cfgLruTwo.maxItems) := by
  refine ⟨rfl, by decide, ?_, by decide, ?_, rfl, by decide, by decide, ?_⟩
  · exact C1_capacity_bound_amended.1 cfgLfuTwo emptySt "a" (.jstr "v") none
      none [] [] 0 [] rfl (by decide) (by decide) (by decide)
  · exact C1_capacity_bound_amended.1 cfgLfuOne c1fSt "b" (.jstr "vb") none
      none [] [] 1 [1] rfl (by decide) (by decide) (by decide)
  · exact C1_capacity_bound_amended.2 cfgLruTwo c1wSt "c" (.jstr "vc") none
      none [] [] 9 [10] rfl (by decide) (by decide) (by decide) (by decide)
      (by decide)

/-- C3 counterexample: the claimed two-sided symmetry fails in a reachable
state.  set('A', dependsOn ['B']) records 'B' in A.dependsOn, but
updateDependencies only back-links dependents on entries already resident,
so after a later set('B') the pair is resident with B ∈ A.dependsOn yet
A ∉ B.dependents. -/
theorem C3_counterexample :
    guardedRun cfgPlain emptySt c3Ops = true ∧
    runOps cfgPlain emptySt c3Ops = some c3St ∧
    symIffB c3St = false ∧
    (mapGet c3St.items "A").map (fun it => decide ("B" ∈ it.dependsOn)) =
      some true ∧
    (mapGet c3St.items "B").map (fun it => decide ("A" ∈ it.dependents)) =
      some false := by
  decide

/-- C3 (amended): one direction of the symmetry is invariant.  Starting from
the empty store, along any terminating run of public operations in which
every set targets a fresh key that no resident entry lists among its
dependents, the final state satisfies: whenever resident B lists A among its
dependents and A is resident, A lists B in its dependsOn.  The converse
direction is not invariant (dependencies on not-yet-created keys, and
dependents surviving an overwrite of their target, break it). -/
theorem C3_dependency_symmetry_amended :
    ∀ (cfg : Config) (ops : List Op) (s' : St),
      guardedRun cfg emptySt ops = true → runOps cfg emptySt ops = some s' →
      SymFwd s' ∧ symFwdB s' = true := by
  intro cfg ops s' hg hr
  have hempty : SymFwd emptySt := by
    intro A B itB itA hB hdep hA
    exact Option.noConfusion hB
  obtain ⟨hnd, _, hsym⟩ := runOps_post cfg ops emptySt s' (by simp [emptySt])
    (by simp [emptySt]) hempty hg hr
  exact ⟨hsym, (symFwdB_iff s' hnd).mpr hsym⟩

/-- The guarded forward symmetry evaluated on a concrete run including a
dependent set, a get and a cascading delete. -/
theorem C3_witness :
    guardedRun cfgPlain emptySt c3wOps = true ∧
    runOps cfgPlain emptySt c3wOps = some c3wSt ∧
    symFwdB c3wSt = true := by
  refine ⟨by decide, by decide, ?_⟩
  exact (C3_dependency_symmetry_amended cfgPlain c3wOps c3wSt (by decide)
    (by decide)).2

/-- C4: a completed delete(key) removes key and cascades through the
dependents graph — every entry transitively reachable from key along
dependent edges is gone; conversely nothing else is removed (every removed
entry is key itself or reachable from it), and each removed entry is
unlinked both from the dependents lists of the entries it depended on and
from the key lists of its tags.  The hypothesis that the recursion
completed at the given unrolling depth is essential: the source recursion
has no cycle guard. -/
theorem C4_delete_cascades :
    ∀ (fuel : Nat) (s : St) (key : String) (s' : St),
      (s.items.map Prod.fst).Nodup → (s.tags.map Prod.fst).Nodup →
      deleteFuel fuel s key = some s' →
      mapGet s'.items key = none ∧
      (∀ d, Reaches s key d → mapGet s'.items d = none) ∧
      (∀ x itx, mapGet s.items x = some itx → mapGet s'.items x = none →
        (x = key ∨ Reaches s key x) ∧
        (∀ dep, dep ∈ itx.dependsOn → ∀ itd, mapGet s'.items dep = some itd →
          x ∉ itd.dependents) ∧
        (∀ t, t ∈ itx.tags → ∀ tg, mapGet s'.tags t = some tg →
          x ∉ tg.keys)) := by
  intro fuel s key s' hndI hndT h
  have hpost := delete_post fuel s key s' hndI hndT h
  exact ⟨hpost.2.2.2.1, delPost_reaches_dead hpost, hpost.2.2.2.2.2⟩

/-- The cascade on the concrete chain: deleting parent also removes child
and grandchild, through the reachability witnesses parent → child →
grandchild. -/
theorem C4_witness :
    (chainSt.items.map Prod.fst).Nodup ∧
    (chainSt.tags.map Prod.fst).Nodup ∧
    deleteFuel 4 chainSt "parent" = some chainDel ∧
    mapGet chainDel.items "parent" = none ∧
    mapGet chainDel.items "child" = none ∧
    mapGet chainDel.items "grandchild" = none := by
  have R1 : Reaches chainSt "parent" "child" :=
    Reaches.single ((edgeB_iff chainSt "parent" "child").mp (by decide))
  have R2 : Reaches chainSt "parent" "grandchild" :=
    Reaches.tail R1 ((edgeB_iff chainSt "child" "grandchild").mp (by decide))
  have hdel : deleteFuel 4 chainSt "parent" = some chainDel := by decide
  have T := C4_delete_cascades 4 chainSt "parent" chainDel (by decide)
    (by decide) hdel
  exact ⟨by decide, by decide, hdel, T.1, T.2.1 "child" R1,
    T.2.1 "grandchild" R2⟩

/-- C5 counterexample: the list invalidateByTag returns is the tag index's
key list, not the set of entries it removed.  After an eviction (which does
not unlink the tag index) the returned list still contains the evicted key
'a', which was not resident at the call; and a cascading delete removes the
untagged dependent 'c', which the returned list omits. -/
theorem C5_counterexample :
    mapGet c5St.items "a" = none ∧
    invalidateByTagOp c5St "t" = some c5Out ∧
    c5Out.1 = ["a", "b"] ∧
    invalidateByTagOp c5bSt "t" = some c5bOut ∧
    c5bOut.1 = ["b"] ∧
    mapGet c5bSt.items "c" ≠ none ∧
    mapGet c5bOut.2.items "c" = none := by
  decide

/-- C5 (amended): a completed invalidateByTag(tag) returns exactly the tag
index's key list for tag (the empty list when the tag is unknown), drops the
tag from the index, and removes every entry whose key is on that list;
conversely every resident entry that is neither on the list nor reachable
from a listed key along dependent edges stays resident.  The returned list
can name evicted keys the call did not remove, and cascade deletion can
remove entries the list does not name. -/
theorem C5_invalidate_by_tag_amended :
    ∀ (s : St) (tag : String) (keys : List String) (s' : St),
      (s.items.map Prod.fst).Nodup → (s.tags.map Prod.fst).Nodup →
      invalidateByTagOp s tag = some (keys, s') →
      keys = (match mapGet s.tags tag with
        | some tg => tg.keys
        | none => []) ∧
      mapGet s'.tags tag = none ∧
      (∀ k ∈ keys, mapGet s'.items k = none) ∧
      (∀ x itx, mapGet s.items x = some itx →
        (∀ k ∈ keys, x ≠ k ∧ ¬ Reaches s k x) →
        mapGet s'.items x ≠ none) := by
  intro s tag keys s' hndI hndT h
  obtain ⟨_, _, _, hkeys, htag, hdead, hrem⟩ :=
    invalidateByTag_post s tag keys s' hndI hndT h
  refine ⟨hkeys, htag, hdead, ?_⟩
  intro x itx hx hnr hx'
  obtain ⟨k, hk, hcase⟩ := hrem x itx hx hx'
  rcases hcase with rfl | hr
  · exact (hnr x hk).1 rfl
  · exact (hnr k hk).2 hr

/-- invalidateByTag('users') on the concrete three-entry store: it returns
exactly the two user keys, removes both, drops the tag, and leaves the post
entry resident. -/
theorem C5_witness :
    (c5wSt.items.map Prod.fst).Nodup ∧
    (c5wSt.tags.map Prod.fst).Nodup ∧
    invalidateByTagOp c5wSt "users" = some (c5wOut.1, c5wOut.2) ∧
    c5wOut.1 = ["user:1", "user:2"] ∧
    mapGet c5wOut.2.tags "users" = none ∧
    mapGet c5wOut.2.items "user:1" = none ∧
    mapGet c5wOut.2.items "user:2" = none ∧
    mapGet c5wOut.2.items "post:1" ≠ none := by
  have h : invalidateByTagOp c5wSt "users" = some (c5wOut.1, c5wOut.2) := by
    decide
  have T := C5_invalidate_by_tag_amended c5wSt "users" c5wOut.1 c5wOut.2
    (by decide) (by decide) h
  have hlist : c5wOut.1 = ["user:1", "user:2"] := by decide
  have hnr : ∀ k ∈ c5wOut.1, "post:1" ≠ k ∧ ¬ Reaches c5wSt k "post:1" := by
    intro k hk
    rw [hlist] at hk
    have hk' : k = "user:1" ∨ k = "user:2" := by simpa using hk
    constructor
    · rcases hk' with rfl | rfl <;> decide
    · rcases hk' with rfl | rfl <;>
        exact no_edges_no_reach c5wSt _ (by decide) "post:1"
  refine ⟨by decide, by decide, h, hlist, T.2.1,
    T.2.2.1 "user:1" (by rw [hlist]; decide),
    T.2.2.1 "user:2" (by rw [hlist]; decide), ?_⟩
  cases hx : mapGet c5wSt.items "post:1" with
  | none => exact absurd hx (by decide)
  | some itP => exact T.2.2.2 "post:1" itP hx hnr

/-- The partition assigner exercised at concrete inputs: a disabled
assigner, the hash strategy on 'user:123', and the range strategy on the
non-empty key 'alpha', all with 4 partitions. -/
theorem C9_witness :
    (1 ≤ cfgOff4.partitions ∧ getPartition cfgOff4 "user:123" = .int 0) ∧
    (1 ≤ cfgHash4.partitions ∧
      ∃ b : Nat, getPartition cfgHash4 "user:123" = .int b ∧
        b < cfgHash4.partitions) ∧
    (1 ≤ cfgRange4.partitions ∧
      (match cfgRange4.partitionKey with
        | some f => f "alpha"
        | none => "alpha").data ≠ [] ∧
      ∃ b : Nat, getPartition cfgRange4 "alpha" = .int b ∧
        b < cfgRange4.partitions) := by
  refine ⟨⟨by decide, ?_⟩, ⟨by decide, ?_⟩, ⟨by decide, by decide, ?_⟩⟩
  · exact C9_partition_amended.1 cfgOff4 "user:123" (by decide) rfl
  · exact C9_partition_amended.2.1 cfgHash4 "user:123" (by decide) rfl
      (Or.inl rfl)
  · exact C9_partition_amended.2.2 cfgRange4 "alpha" (by decide) rfl rfl
      (by decide)

end Cachly

